import Mathlib

/-!
Verification development for the osu-score-history ingest loop
(src/main.py).  The Python program polls a web API for score records,
deduplicates them against an in-memory ledger seeded from a CSV file,
flattens nested records into rows, and appends the rows to the file.

Shallow embedding conventions:
  * JSON-like values are the inductive `Value`; a score record is an
    association list `Record := List (String × Value)` mirroring a
    Python dict (insertion order preserved, unique keys in practice).
  * Python `str(x)` is `pyStr`; on containers the rendering is an
    approximation of the Python repr (string elements are rendered
    without quotes); no claim depends on the text of a container.
  * `hashlib.md5(...).hexdigest()` is modelled by `md5hex`, an abstract
    deterministic function of the input string; since every claim uses
    only equality of digests induced by equality of preimages, the
    identity serves as the model.
  * Python sets of strings are `Finset String`; `set.update` is union.
  * The CSV file is `Option CsvFile`: `none` models a missing or
    zero-size file (the code tests `os.path.isfile and getsize > 0` in
    both places, so the two conditions are observationally identical),
    `some` holds the header line and the data lines as cell lists.
-/

namespace OsuScoreHistory

/-- JSON-like values appearing in a fetched score record. -/
inductive Value where
  | vstr (s : String)
  | vint (n : Int)
  | vbool (b : Bool)
  | vnull
  | vlist (l : List Value)
  | vdict (d : List (String × Value))

/-- A score record: a Python dict as an insertion-ordered association list. -/
abbrev Record := List (String × Value)

mutual

/-- Python str() of a value.  Scalars match Python exactly
(str(int), str(bool) is True or False, str(None) is None); containers
are rendered recursively in a repr-like form, with string elements
rendered without the quotes Python would add.  No claim inspects the
rendering of a container. -/
def pyStr : Value → String
  | Value.vstr s => s
  | Value.vint n => toString n
  | Value.vbool b => if b then "True" else "False"
  | Value.vnull => "None"
  | Value.vlist l => "[" ++ String.intercalate ", " (pyStrList l) ++ "]"
  | Value.vdict d => "\x7b" ++ String.intercalate ", " (pyStrDict d) ++ "\x7d"

def pyStrList : List Value → List String
  | [] => []
  | v :: rest => pyStr v :: pyStrList rest

def pyStrDict : List (String × Value) → List String
  | [] => []
  | (k, v) :: rest => (k ++ ": " ++ pyStr v) :: pyStrDict rest

end

/-- First-match lookup in an association list: Python dict access. -/
def lookupAssoc {β : Type} : List (String × β) → String → Option β
  | [], _ => none
  | (k0, v0) :: rest, k => if k0 = k then some v0 else lookupAssoc rest k

/-- Python dict assignment d[k] = v: overwrite in place if the key is
present (keeping its position), otherwise append at the end. -/
def insertAssoc {β : Type} : List (String × β) → String → β → List (String × β)
  | [], k, v => [(k, v)]
  | (k0, v0) :: rest, k, v =>
      if k0 = k then (k0, v) :: rest else (k0, v0) :: insertAssoc rest k v

/-- Python str(score_data.get(k, '')): the string form of the value at
key k, or the empty string when the key is absent. -/
def pyGetStr (r : Record) (k : String) : String :=
  match lookupAssoc r k with
  | some v => pyStr v
  | none => ""

/-- hashlib.md5(s.encode()).hexdigest(), modelled as an abstract
deterministic function of s (see the file header). -/
def md5hex (s : String) : String := s

/-- generate_score_hash (src/main.py lines 69-85): concatenates the
string forms of id, user_id, beatmap_id and created_at (absent fields
degrade to the empty string) and hashes the result. -/
def generate_score_hash (score_data : Record) : String :=
  md5hex (pyGetStr score_data "id" ++ pyGetStr score_data "user_id"
    ++ pyGetStr score_data "beatmap_id" ++ pyGetStr score_data "created_at")

/-- The mod_list comprehension (src/main.py line 166): the raw values
of the acronym entries of those mods that are dicts containing the key
acronym.  The source keeps these values as they are; the subsequent
join raises TypeError when one of them is not a string. -/
def modAcronyms (l : List Value) : List Value :=
  l.filterMap (fun m =>
    match m with
    | Value.vdict d => lookupAssoc d "acronym"
    | _ => none)

/-- The argument check of str.join: Python joins only a list of
strings; this returns the strings when every element is one, and none
when the join would raise TypeError. -/
def strValues : List Value → Option (List String)
  | [] => some []
  | Value.vstr s :: rest => (strValues rest).map (fun ss => s :: ss)
  | _ => none

/-- One iteration of the flattening loop body (src/main.py lines
157-171): a dict value is flattened one level into field_subkey
columns; a list under the key mods becomes the comma-joined acronym
string; everything else is passed through unchanged.  When some acronym
is not a string the source raises TypeError inside the join; that
exception path is carried by flattenEntryE below, and here the mods
branch is totalized with the empty list, a value no theorem inspects
without a modsJoinOk hypothesis tying flatten_score to flattenScoreE. -/
def flattenEntry (flat : List (String × Value)) (entry : String × Value) :
    List (String × Value) :=
  match entry with
  | (key, Value.vdict sub) =>
      sub.foldl (fun fl sv => insertAssoc fl (key ++ "_" ++ sv.1) sv.2) flat
  | (key, Value.vlist l) =>
      if key = "mods" then
        insertAssoc flat "mods"
          (Value.vstr (String.intercalate "," ((strValues (modAcronyms l)).getD [])))
      else insertAssoc flat key (Value.vlist l)
  | (key, v) => insertAssoc flat key v

/-- The flattening loop body with its exception path: a mods list whose
join raises TypeError yields none, which propagates as the exception
would. -/
def flattenEntryE (flat : List (String × Value)) (entry : String × Value) :
    Option (List (String × Value)) :=
  match entry with
  | (key, Value.vdict sub) =>
      some (sub.foldl (fun fl sv => insertAssoc fl (key ++ "_" ++ sv.1) sv.2) flat)
  | (key, Value.vlist l) =>
      if key = "mods" then
        match strValues (modAcronyms l) with
        | some ss =>
            some (insertAssoc flat "mods" (Value.vstr (String.intercalate "," ss)))
        | none => none
      else some (insertAssoc flat key (Value.vlist l))
  | (key, v) => some (insertAssoc flat key v)

/-- The flattened row of one score (src/main.py lines 153-173, the body
building flat_score). -/
def flatten_score (score : Record) : List (String × Value) :=
  score.foldl flattenEntry []

/-- flatten_score with the exception path of the source: none when the
program raises while flattening the record, otherwise the row. -/
def flattenScoreE (score : Record) : Option (List (String × Value)) :=
  score.foldlM flattenEntryE []

/-- One entry does not make the flattening raise: a mods list joins
successfully (every extracted acronym is a string). -/
def flattenEntryOk (e : String × Value) : Bool :=
  match e.2 with
  | Value.vlist l => if e.1 = "mods" then (strValues (modAcronyms l)).isSome else true
  | _ => true

/-- No entry of the record makes the flattening raise. -/
def modsJoinOk (r : Record) : Bool :=
  r.all flattenEntryOk

/-- The column names an entry of the record contributes to the flat row:
a dict writes one column per subkey, every other value writes the column
named by its own key (for a mods list that key is the string mods). -/
def producedColsEntry (e : String × Value) : List String :=
  match e.2 with
  | Value.vdict d => d.map (fun sv => e.1 ++ "_" ++ sv.1)
  | _ => [e.1]

/-- All column names written while flattening a record, in write order. -/
def producedCols (r : Record) : List String :=
  List.flatten (r.map producedColsEntry)

/-- The column names produced by nested-dict fields only. -/
def producedDictCols (r : Record) : List String :=
  List.flatten (r.map (fun e =>
    match e.2 with
    | Value.vdict d => d.map (fun sv => e.1 ++ "_" ++ sv.1)
    | _ => []))

/-- The all_fields set accumulated over a batch (src/main.py lines
150-173): the union of the column names of the flattened rows.  The
source adds each column name at the moment it is written; the result is
exactly this union. -/
def batchFields (flat_scores : List (List (String × Value))) : Finset String :=
  flat_scores.foldl (fun s fl => s ∪ (fl.map Prod.fst).toFinset) ∅

/-- Code point lexicographic comparison of character lists, the order
Python sorted() uses on strings.  This coincides with the standard
order on String, but unlike the iterator-based comparison of the
library it evaluates inside the kernel. -/
def charLeb : List Char → List Char → Bool
  | [], _ => true
  | _ :: _, [] => false
  | c :: cs, d :: ds => if c < d then true else if d < c then false else charLeb cs ds

/-- The sort relation for Python sorted() on column names. -/
def pyLe (a b : String) : Prop :=
  charLeb a.data b.data = true

instance : DecidableRel pyLe := fun _ _ => instDecidableEqBool _ _

theorem charLeb_total (a : List Char) : ∀ b, charLeb a b = true ∨ charLeb b a = true := by
  induction a with
  | nil => intro b; left; rfl
  | cons x xs ih =>
    intro b
    cases b with
    | nil => right; rfl
    | cons y ys =>
      rcases lt_trichotomy x y with hxy | hxy | hxy
      · left
        simp [charLeb, hxy]
      · subst hxy
        rcases ih ys with h | h
        · left
          simp [charLeb, lt_irrefl, h]
        · right
          simp [charLeb, lt_irrefl, h]
      · right
        simp [charLeb, hxy]

theorem charLeb_trans (a : List Char) :
    ∀ b c, charLeb a b = true → charLeb b c = true → charLeb a c = true := by
  induction a with
  | nil => intro b c _ _; rfl
  | cons x xs ih =>
    intro b c hab hbc
    cases b with
    | nil => simp [charLeb] at hab
    | cons y ys =>
      cases c with
      | nil => simp [charLeb] at hbc
      | cons z zs =>
        rcases lt_trichotomy x y with hxy | hxy | hxy
        · rcases lt_trichotomy y z with hyz | hyz | hyz
          · simp [charLeb, lt_trans hxy hyz]
          · subst hyz
            simp [charLeb, hxy]
          · rw [charLeb, if_neg (asymm hyz), if_pos hyz] at hbc
            cases hbc
        · subst hxy
          rcases lt_trichotomy x z with hyz | hyz | hyz
          · simp [charLeb, hyz]
          · subst hyz
            rw [charLeb, if_neg (lt_irrefl x), if_neg (lt_irrefl x)] at hab hbc ⊢
            exact ih ys zs hab hbc
          · rw [charLeb, if_neg (asymm hyz), if_pos hyz] at hbc
            cases hbc
        · rw [charLeb, if_neg (asymm hxy), if_pos hxy] at hab
          cases hab

theorem charLeb_antisymm (a : List Char) :
    ∀ b, charLeb a b = true → charLeb b a = true → a = b := by
  induction a with
  | nil =>
    intro b _ hba
    cases b with
    | nil => rfl
    | cons y ys => simp [charLeb] at hba
  | cons x xs ih =>
    intro b hab hba
    cases b with
    | nil => simp [charLeb] at hab
    | cons y ys =>
      rcases lt_trichotomy x y with hxy | hxy | hxy
      · rw [charLeb, if_neg (asymm hxy), if_pos hxy] at hba
        cases hba
      · subst hxy
        rw [charLeb, if_neg (lt_irrefl x), if_neg (lt_irrefl x)] at hab hba
        rw [ih ys hab hba]
      · rw [charLeb, if_neg (asymm hxy), if_pos hxy] at hab
        cases hab

instance : IsTotal String pyLe :=
  ⟨fun a b => charLeb_total a.data b.data⟩

instance : IsTrans String pyLe :=
  ⟨fun a b c => charLeb_trans a.data b.data c.data⟩

instance : IsAntisymm String pyLe :=
  ⟨fun a b hab hba => by
    have hd : a.data = b.data := charLeb_antisymm a.data b.data hab hba
    cases a
    cases b
    exact congrArg String.mk hd⟩

/-- Python sorted() on a set of strings: the sorted list of the
distinct column names, in code point lexicographic order. -/
def sortedFields (s : Finset String) : List String :=
  Quot.liftOn s.val (fun l => l.insertionSort pyLe) (fun a b h =>
    List.eq_of_perm_of_sorted
      ((List.perm_insertionSort _ a).trans (h.trans (List.perm_insertionSort _ b).symm))
      (List.sorted_insertionSort _ a) (List.sorted_insertionSort _ b))

/-- The persisted CSV file: the header line and the data lines, each a
list of cell strings. -/
structure CsvFile where
  header : List String
  rows : List (List String)
deriving DecidableEq

/-- The text the csv module puts in a cell for a value: str(v) for
every value except None, which the csv writer emits as the empty
string. -/
def pyCsvCell : Value → String
  | Value.vnull => ""
  | v => pyStr v

/-- csv.DictWriter writing one flat row under the given fieldnames: one
cell per field holding the csv rendering of the value (str(), except
None becomes the empty string), restval (the empty string) for a field
the row does not carry. -/
def writeRow (fieldnames : List String) (flat : List (String × Value)) : List String :=
  fieldnames.map (fun f =>
    match lookupAssoc flat f with
    | some v => pyCsvCell v
    | none => "")

/-- csv.DictReader turning one data line into a row dict: the header
names are paired with the cells in order; a missing trailing cell reads
as None (restval); extra cells beyond the header are collected under the
None restkey, which no lookup by a string key ever sees, so they are
dropped here. -/
def readRow : List String → List String → List (String × Option String)
  | [], _ => []
  | h :: hs, [] => (h, none) :: readRow hs []
  | h :: hs, c :: cs => (h, some c) :: readRow hs cs

/-- A row dict viewed again as a Record, for hashing: present cells are
strings, restval cells are None. -/
def rowToRecord (row : List (String × Option String)) : Record :=
  row.map (fun p =>
    (p.1, match p.2 with
          | some s => Value.vstr s
          | none => Value.vnull))

/-- The per-row body of load_existing_scores (src/main.py lines
98-105): add the id cell to the id set when the id column is present
and truthy (a non-empty string), and always add the hash of the row.
The accumulator pairs the hash set first, matching the return order
existing_hashes, score_ids. -/
def loadRowStep (acc : Finset String × Finset String)
    (row : List (String × Option String)) : Finset String × Finset String :=
  let ids :=
    match lookupAssoc row "id" with
    | some (some s) => if s ≠ "" then insert s acc.2 else acc.2
    | _ => acc.2
  (insert (generate_score_hash (rowToRecord row)) acc.1, ids)

/-- load_existing_scores (src/main.py lines 87-111) on a readable file:
two empty sets for a missing or zero-size file, otherwise one
loadRowStep per data row. -/
def load_existing_scores (file : Option CsvFile) : Finset String × Finset String :=
  match file with
  | none => (∅, ∅)
  | some f => ((f.rows.map (readRow f.header)).foldl loadRowStep (∅, ∅))

/-- load_existing_scores when reading raises after failAt rows have been
parsed: the try/except at lines 95-109 logs the warning and returns the
sets accumulated so far instead of propagating. -/
def load_existing_scores_err (file : Option CsvFile) (failAt : Nat) :
    Finset String × Finset String :=
  match file with
  | none => (∅, ∅)
  | some f => (((f.rows.take failAt).map (readRow f.header)).foldl loadRowStep (∅, ∅))

/-- One iteration of the dedup loop of process_scores (src/main.py
lines 128-143), threading (new_scores, new_hashes, new_ids): skip when
the string-coerced id is already in the existing id set, otherwise skip
when the hash is already in the existing hash set, otherwise accept. -/
def dedupStep (existing_hashes existing_ids : Finset String)
    (acc : List Record × Finset String × Finset String) (score : Record) :
    List Record × Finset String × Finset String :=
  let score_id := pyGetStr score "id"
  if score_id ∈ existing_ids then acc
  else
    let score_hash := generate_score_hash score
    if score_hash ∈ existing_hashes then acc
    else (acc.1 ++ [score], insert score_hash acc.2.1, insert score_id acc.2.2)

/-- The new_scores list computed by the dedup loop of process_scores. -/
def acceptedScores (existing_hashes existing_ids : Finset String)
    (scores_data : List Record) : List Record :=
  (scores_data.foldl (dedupStep existing_hashes existing_ids) ([], ∅, ∅)).1

/-- The values process_scores hands back, together with the file it
leaves behind. -/
structure ProcessResult where
  added : Nat
  newHashes : Finset String
  newIds : Finset String
  file : Option CsvFile
deriving DecidableEq

/-- process_scores (src/main.py lines 113-200).  Empty input returns
immediately; the dedup loop selects new scores; if none are new the file
is untouched; otherwise the accepted scores are flattened, the
fieldnames are the sorted batch columns (for a fresh file) or the sorted
union of the batch columns with the existing header (for a pre-existing
file; the guard if existing_fields in the source is equivalent to the
plain union because the union with an empty header set is the identity),
the header is written only when the file did not exist, and the rows are
appended. -/
def process_scores (scores_data : List Record) (file : Option CsvFile)
    (existing_hashes existing_ids : Finset String) : ProcessResult :=
  if scores_data.isEmpty then ⟨0, ∅, ∅, file⟩
  else
    let dedup := scores_data.foldl (dedupStep existing_hashes existing_ids) ([], ∅, ∅)
    if dedup.1.isEmpty then ⟨0, ∅, ∅, file⟩
    else
      let flat_scores := dedup.1.map flatten_score
      let all_fields := batchFields flat_scores
      match file with
      | none =>
          let fieldnames := sortedFields all_fields
          ⟨flat_scores.length, dedup.2.1, dedup.2.2,
            some ⟨fieldnames, flat_scores.map (writeRow fieldnames)⟩⟩
      | some f =>
          let fieldnames := sortedFields (all_fields ∪ f.header.toFinset)
          ⟨flat_scores.length, dedup.2.1, dedup.2.2,
            some ⟨f.header, f.rows ++ flat_scores.map (writeRow fieldnames)⟩⟩

/-- The mutable state of main (src/main.py lines 237-262): the two
ledger sets and the file on disk. -/
structure SysState where
  hashes : Finset String
  ids : Finset String
  file : Option CsvFile
deriving DecidableEq

/-- The per-user body of the poll loop (src/main.py lines 252-262): a
failed fetch returns None and the if scores guard skips it (an empty
fetch result is skipped by the same guard); a successful fetch is
processed and the ledger sets are updated with the new hashes and ids. -/
def pollUser (st : SysState) (fetched : Option (List Record)) : SysState :=
  match fetched with
  | none => st
  | some scores =>
      if scores.isEmpty then st
      else
        let res := process_scores scores st.file st.hashes st.ids
        ⟨st.hashes ∪ res.newHashes, st.ids ∪ res.newIds, res.file⟩

/-- A sequence of fetch results processed in order: within one cycle the
users are visited in list order, and consecutive cycles simply
concatenate, the sleep between them having no effect on the state. -/
def runPoll (st : SysState) (fetches : List (Option (List Record))) : SysState :=
  fetches.foldl pollUser st

/-- What the driver does next after the except Exception handler. -/
inductive DriverNext where
  | polling
  | exitOk
  | exitErr
deriving DecidableEq

/-- The except Exception handler at the end of main (src/main.py lines
275-283): it attempts one token refresh; if get_oauth_token raises or
exits, the bare except prints and calls sys.exit(1); if the refresh
succeeds, the handler body ends and with it main itself, because the
try/except stands outside the while loop, so the process terminates
normally without ever re-entering the polling loop. -/
def handleUnexpectedError (refreshSucceeds : Bool) : DriverNext :=
  if refreshSucceeds then DriverNext.exitOk else DriverNext.exitErr

/-- Modelled from the spec: section 4.5 REAUTHENTICATING requires that a
successful re-authentication return the driver to POLLING, and a failed
one terminate the process. -/
def specReauthNext (refreshSucceeds : Bool) : DriverNext :=
  if refreshSucceeds then DriverNext.polling else DriverNext.exitErr

/-- Does a value carry a nested dict? -/
def isDictV : Value → Bool
  | Value.vdict _ => true
  | _ => false

/-- Does a value carry a list? -/
def isListV : Value → Bool
  | Value.vlist _ => true
  | _ => false

/-- Is the value None?  None is the one value whose csv cell differs
from its str() form: it is written as the empty string. -/
def isNullV : Value → Bool
  | Value.vnull => true
  | _ => false

/-- Scalar values: neither a dict nor a list. -/
def isScalarV (v : Value) : Bool :=
  !(isDictV v) && !(isListV v)

theorem pyCsvCell_eq_pyStr {v : Value} (h : isNullV v = false) :
    pyCsvCell v = pyStr v := by
  cases v with
  | vnull => simp [isNullV] at h
  | vstr s => rfl
  | vint n => rfl
  | vbool b => rfl
  | vlist l => rfl
  | vdict d => rfl

/-- The four identity fields hashed by generate_score_hash. -/
def hashKeys : List String :=
  ["id", "user_id", "beatmap_id", "created_at"]

/-- An identity field of a record survives flattening and the CSV round
trip: if present it is neither a nested dict (which flattens away) nor
None (whose csv cell is empty while its str() is the text None), and no
nested dict of the record emits a column of this name that would
overwrite or impersonate it. -/
def fieldOk (r : Record) (k : String) : Bool :=
  (match lookupAssoc r k with
   | some v => !(isDictV v) && !(isNullV v)
   | none => true) && decide (k ∉ producedDictCols r)

/-- The id field is present, is neither a nested dict nor None, and its
string form is non-empty, so the id cell of the written row is truthy
on re-read. -/
def idOk (r : Record) : Bool :=
  match lookupAssoc r "id" with
  | some v => !(isDictV v) && !(isNullV v) && decide (pyStr v ≠ "")
  | none => false

/-- A record shaped like the data model of the spec: unique keys (as in
any Python dict), all four identity fields round-trip safe, a usable
id, and a mods list the program can join without raising. -/
def goodRecord (r : Record) : Bool :=
  decide ((r.map Prod.fst).Nodup) && (hashKeys.all (fun k => fieldOk r k)) && idOk r &&
    modsJoinOk r

/-- The four identity fields are present as top-level non-null scalars
and no nested dict emits a column shadowing them. -/
def scalarFieldsOk (r : Record) : Bool :=
  hashKeys.all (fun k =>
    (match lookupAssoc r k with
     | some v => isScalarV v && !(isNullV v)
     | none => false) && decide (k ∉ producedDictCols r))

theorem lookupAssoc_insertAssoc_self {β : Type} (l : List (String × β)) (k : String) (v : β) :
    lookupAssoc (insertAssoc l k v) k = some v := by
  induction l with
  | nil => simp [insertAssoc, lookupAssoc]
  | cons e rest ih =>
    obtain ⟨k0, v0⟩ := e
    by_cases h : k0 = k
    · simp [insertAssoc, lookupAssoc, h]
    · simp [insertAssoc, lookupAssoc, h, ih]

theorem lookupAssoc_insertAssoc_ne {β : Type} (l : List (String × β)) (k k' : String) (v : β)
    (h : k' ≠ k) : lookupAssoc (insertAssoc l k v) k' = lookupAssoc l k' := by
  have hkk : ¬k = k' := fun hh => h hh.symm
  induction l with
  | nil => simp [insertAssoc, lookupAssoc, hkk]
  | cons e rest ih =>
    obtain ⟨k0, v0⟩ := e
    by_cases h0 : k0 = k
    · subst h0
      simp [insertAssoc, lookupAssoc, hkk]
    · simp [insertAssoc, lookupAssoc, h0, ih]

theorem lookupAssoc_eq_none_iff {β : Type} (l : List (String × β)) (k : String) :
    lookupAssoc l k = none ↔ k ∉ l.map Prod.fst := by
  induction l with
  | nil => simp [lookupAssoc]
  | cons e rest ih =>
    obtain ⟨k0, v0⟩ := e
    by_cases h : k0 = k
    · subst h
      simp [lookupAssoc]
    · have hk : ¬k = k0 := fun hh => h hh.symm
      simp [lookupAssoc, h, ih, hk]

theorem mem_keys_of_lookupAssoc_some {β : Type} {l : List (String × β)} {k : String} {v : β}
    (h : lookupAssoc l k = some v) : k ∈ l.map Prod.fst := by
  by_contra hmem
  rw [← lookupAssoc_eq_none_iff] at hmem
  rw [h] at hmem
  cases hmem

theorem lookupAssoc_some_split {β : Type} {l : List (String × β)} {k : String} {v : β}
    (h : lookupAssoc l k = some v) :
    ∃ l₁ l₂, l = l₁ ++ (k, v) :: l₂ ∧ k ∉ l₁.map Prod.fst := by
  induction l with
  | nil => simp [lookupAssoc] at h
  | cons e rest ih =>
    obtain ⟨k0, v0⟩ := e
    by_cases h0 : k0 = k
    · subst h0
      simp [lookupAssoc] at h
      exact ⟨[], rest, by simp [h], by simp⟩
    · simp [lookupAssoc, h0] at h
      obtain ⟨l₁, l₂, hl, hk⟩ := ih h
      refine ⟨(k0, v0) :: l₁, l₂, by simp [hl], ?_⟩
      have hk0 : ¬k = k0 := fun hh => h0 hh.symm
      simp [hk, hk0]

theorem producedCols_append (a b : Record) :
    producedCols (a ++ b) = producedCols a ++ producedCols b := by
  simp [producedCols]

theorem producedDictCols_append (a b : Record) :
    producedDictCols (a ++ b) = producedDictCols a ++ producedDictCols b := by
  simp [producedDictCols]

theorem mem_producedCols {c : String} {r : Record} (h : c ∈ producedCols r) :
    c ∈ r.map Prod.fst ∨ c ∈ producedDictCols r := by
  induction r with
  | nil => simp [producedCols] at h
  | cons e rest ih =>
    obtain ⟨k0, v0⟩ := e
    rw [show (k0, v0) :: rest = [(k0, v0)] ++ rest from rfl, producedCols_append] at h
    rcases List.mem_append.1 h with h1 | h2
    · cases v0 with
      | vdict d =>
        right
        rw [show (k0, Value.vdict d) :: rest = [(k0, Value.vdict d)] ++ rest from rfl,
          producedDictCols_append]
        exact List.mem_append.2 (Or.inl (by simpa [producedCols, producedColsEntry,
          producedDictCols] using h1))
      | vstr s => left; simp [producedCols, producedColsEntry] at h1; simp [h1]
      | vint n => left; simp [producedCols, producedColsEntry] at h1; simp [h1]
      | vbool b => left; simp [producedCols, producedColsEntry] at h1; simp [h1]
      | vnull => left; simp [producedCols, producedColsEntry] at h1; simp [h1]
      | vlist l => left; simp [producedCols, producedColsEntry] at h1; simp [h1]
    · rcases ih h2 with hk | hd
      · left; simp [hk]
      · right
        rw [show (k0, v0) :: rest = [(k0, v0)] ++ rest from rfl, producedDictCols_append]
        exact List.mem_append.2 (Or.inr hd)

theorem producedCols_cons (e : String × Value) (r : Record) :
    producedCols (e :: r) = producedColsEntry e ++ producedCols r := by
  simp [producedCols]

theorem lookup_dictFold_ne (sub : List (String × Value)) (acc : List (String × Value))
    (key c : String) (h : c ∉ sub.map (fun sv => key ++ "_" ++ sv.1)) :
    lookupAssoc (sub.foldl (fun fl sv => insertAssoc fl (key ++ "_" ++ sv.1) sv.2) acc) c =
      lookupAssoc acc c := by
  induction sub generalizing acc with
  | nil => rfl
  | cons sv rest ih =>
    simp only [List.map_cons, List.mem_cons] at h
    push_neg at h
    rw [List.foldl_cons, ih _ h.2, lookupAssoc_insertAssoc_ne _ _ _ _ h.1]

theorem lookup_flattenEntry_not_produced (acc : List (String × Value)) (e : String × Value)
    (c : String) (h : c ∉ producedColsEntry e) :
    lookupAssoc (flattenEntry acc e) c = lookupAssoc acc c := by
  obtain ⟨key, v⟩ := e
  cases v with
  | vdict d =>
    simp only [producedColsEntry] at h
    exact lookup_dictFold_ne d acc key c h
  | vlist l =>
    simp only [producedColsEntry, List.mem_singleton] at h
    by_cases hm : key = "mods"
    · subst hm
      simp only [flattenEntry, if_pos rfl]
      exact lookupAssoc_insertAssoc_ne _ _ _ _ h
    · simp only [flattenEntry, if_neg hm]
      exact lookupAssoc_insertAssoc_ne _ _ _ _ h
  | vstr s =>
    simp only [producedColsEntry, List.mem_singleton] at h
    exact lookupAssoc_insertAssoc_ne _ _ _ _ h
  | vint n =>
    simp only [producedColsEntry, List.mem_singleton] at h
    exact lookupAssoc_insertAssoc_ne _ _ _ _ h
  | vbool b =>
    simp only [producedColsEntry, List.mem_singleton] at h
    exact lookupAssoc_insertAssoc_ne _ _ _ _ h
  | vnull =>
    simp only [producedColsEntry, List.mem_singleton] at h
    exact lookupAssoc_insertAssoc_ne _ _ _ _ h

theorem lookup_flattenFold_not_produced (r : Record) (acc : List (String × Value))
    (c : String) (h : c ∉ producedCols r) :
    lookupAssoc (r.foldl flattenEntry acc) c = lookupAssoc acc c := by
  induction r generalizing acc with
  | nil => rfl
  | cons e rest ih =>
    rw [producedCols_cons, List.mem_append] at h
    push_neg at h
    rw [List.foldl_cons, ih _ h.2, lookup_flattenEntry_not_produced _ _ _ h.1]

theorem flattenEntry_passthrough (acc : List (String × Value)) (k : String) (v : Value)
    (hd : isDictV v = false) (hl : k = "mods" → isListV v = false) :
    flattenEntry acc (k, v) = insertAssoc acc k v := by
  cases v with
  | vdict d => simp [isDictV] at hd
  | vlist l =>
    by_cases hm : k = "mods"
    · simp [isListV] at hl
      exact absurd hm hl
    · simp [flattenEntry, hm]
  | vstr s => rfl
  | vint n => rfl
  | vbool b => rfl
  | vnull => rfl

theorem not_mem_producedCols (r : Record) (c : String) (h1 : c ∉ r.map Prod.fst)
    (h2 : c ∉ producedDictCols r) : c ∉ producedCols r := by
  intro h
  rcases mem_producedCols h with hk | hd
  · exact h1 hk
  · exact h2 hd

theorem lookup_flatten_hashKey (r : Record) (k : String)
    (hnd : (r.map Prod.fst).Nodup) (hnm : k ≠ "mods")
    (hv : ∀ v, lookupAssoc r k = some v → isDictV v = false)
    (hpd : k ∉ producedDictCols r) :
    lookupAssoc (flatten_score r) k = lookupAssoc r k := by
  cases hl : lookupAssoc r k with
  | none =>
    have hkeys : k ∉ r.map Prod.fst := (lookupAssoc_eq_none_iff r k).1 hl
    exact (lookup_flattenFold_not_produced r [] k
      (not_mem_producedCols r k hkeys hpd)).trans rfl
  | some v =>
    obtain ⟨l₁, l₂, hsplit, _⟩ := lookupAssoc_some_split hl
    have hknd : k ∉ l₂.map Prod.fst := by
      rw [hsplit] at hnd
      simp only [List.map_append, List.map_cons] at hnd
      have := List.Nodup.of_append_right hnd
      exact (List.nodup_cons.1 this).1
    have hpd₂ : k ∉ producedDictCols l₂ := by
      intro hmem
      apply hpd
      rw [hsplit, producedDictCols_append]
      refine List.mem_append.2 (Or.inr ?_)
      show k ∈ producedDictCols ((k, v) :: l₂)
      have : producedDictCols ((k, v) :: l₂) =
          producedDictCols [(k, v)] ++ producedDictCols l₂ :=
        producedDictCols_append [(k, v)] l₂
      rw [this]
      exact List.mem_append.2 (Or.inr hmem)
    have hpc₂ : k ∉ producedCols l₂ := not_mem_producedCols l₂ k hknd hpd₂
    rw [flatten_score, hsplit, List.foldl_append, List.foldl_cons]
    rw [lookup_flattenFold_not_produced l₂ _ k hpc₂]
    rw [flattenEntry_passthrough _ k v (hv v hl) (fun hm => absurd hm hnm)]
    exact lookupAssoc_insertAssoc_self _ k v

/-- The cell the DictWriter emits for one field of a flat row: the csv
rendering of the value (None becomes the empty string), or the empty
string when the field is absent. -/
def writeRowCell (flat : List (String × Value)) (f : String) : String :=
  match lookupAssoc flat f with
  | some v => pyCsvCell v
  | none => ""

theorem writeRow_eq_map (fieldnames : List String) (flat : List (String × Value)) :
    writeRow fieldnames flat = fieldnames.map (writeRowCell flat) := rfl

theorem readRow_writeRow_lookup (hdr : List String) (flat : List (String × Value))
    (k : String) :
    lookupAssoc (readRow hdr (writeRow hdr flat)) k =
      if k ∈ hdr then some (some (writeRowCell flat k)) else none := by
  rw [writeRow_eq_map]
  induction hdr with
  | nil => simp [readRow, lookupAssoc]
  | cons h hs ih =>
    simp only [List.map_cons, readRow]
    by_cases hk : h = k
    · subst hk
      simp [lookupAssoc]
    · have hk2 : ¬k = h := fun hh => hk hh.symm
      simp [lookupAssoc, hk, ih, List.mem_cons, hk2]

theorem lookup_rowToRecord (row : List (String × Option String)) (k : String) :
    lookupAssoc (rowToRecord row) k =
      (lookupAssoc row k).map (fun oc =>
        match oc with
        | some s => Value.vstr s
        | none => Value.vnull) := by
  induction row with
  | nil => rfl
  | cons p rest ih =>
    obtain ⟨k0, oc⟩ := p
    by_cases h : k0 = k
    · subst h
      simp [rowToRecord, lookupAssoc]
    · simp only [rowToRecord, List.map_cons, lookupAssoc, if_neg h]
      simp only [rowToRecord] at ih
      exact ih

theorem pyGetStr_readback (hdr : List String) (flat : List (String × Value)) (k : String) :
    pyGetStr (rowToRecord (readRow hdr (writeRow hdr flat))) k =
      if k ∈ hdr then writeRowCell flat k else "" := by
  rw [pyGetStr, lookup_rowToRecord, readRow_writeRow_lookup]
  by_cases h : k ∈ hdr
  · simp [h, pyStr]
  · simp [h]

theorem pyGetStr_roundtrip (hdr : List String) (r : Record) (k : String)
    (hnd : (r.map Prod.fst).Nodup) (hnm : k ≠ "mods")
    (hv : ∀ v, lookupAssoc r k = some v → isDictV v = false ∧ isNullV v = false)
    (hpd : k ∉ producedDictCols r)
    (hsub : k ∈ (flatten_score r).map Prod.fst → k ∈ hdr) :
    pyGetStr (rowToRecord (readRow hdr (writeRow hdr (flatten_score r)))) k =
      pyGetStr r k := by
  rw [pyGetStr_readback]
  have hfl := lookup_flatten_hashKey r k hnd hnm (fun v hh => (hv v hh).1) hpd
  by_cases h : k ∈ hdr
  · rw [if_pos h, writeRowCell, hfl]
    cases hl : lookupAssoc r k with
    | none => rw [pyGetStr, hl]
    | some v =>
      rw [pyGetStr, hl]
      show pyCsvCell v = pyStr v
      exact pyCsvCell_eq_pyStr (hv v hl).2
  · rw [if_neg h]
    cases hl : lookupAssoc r k with
    | none => rw [pyGetStr, hl]
    | some v =>
      exfalso
      apply h
      apply hsub
      apply mem_keys_of_lookupAssoc_some (v := v)
      rw [hfl, hl]

theorem fieldOk_unpack {r : Record} {k : String} (h : fieldOk r k = true) :
    (∀ v, lookupAssoc r k = some v → isDictV v = false ∧ isNullV v = false) ∧
      k ∉ producedDictCols r := by
  rw [fieldOk, Bool.and_eq_true, decide_eq_true_eq] at h
  refine ⟨?_, h.2⟩
  intro v hv
  have h1 := h.1
  rw [hv] at h1
  have h2 : (!(isDictV v) && !(isNullV v)) = true := h1
  rw [Bool.and_eq_true] at h2
  exact ⟨by simpa using h2.1, by simpa using h2.2⟩

theorem idOk_unpack {r : Record} (h : idOk r = true) :
    ∃ v, lookupAssoc r "id" = some v ∧ isDictV v = false ∧ isNullV v = false ∧
      pyStr v ≠ "" := by
  rw [idOk] at h
  cases hl : lookupAssoc r "id" with
  | none => rw [hl] at h; cases h
  | some v =>
    rw [hl] at h
    have h2 : (!(isDictV v) && !(isNullV v) && decide (pyStr v ≠ "")) = true := h
    rw [Bool.and_eq_true, Bool.and_eq_true, decide_eq_true_eq] at h2
    exact ⟨v, rfl, by simpa using h2.1.1, by simpa using h2.1.2, h2.2⟩

theorem goodRecord_unpack {r : Record} (h : goodRecord r = true) :
    (r.map Prod.fst).Nodup ∧ (∀ k ∈ hashKeys, fieldOk r k = true) ∧ idOk r = true ∧
      modsJoinOk r = true := by
  rw [goodRecord, Bool.and_eq_true, Bool.and_eq_true, Bool.and_eq_true,
    decide_eq_true_eq, List.all_eq_true] at h
  exact ⟨h.1.1.1, fun k hk => h.1.1.2 k hk, h.1.2, h.2⟩

theorem hash_roundtrip (hdr : List String) (r : Record)
    (hnd : (r.map Prod.fst).Nodup)
    (hfa : ∀ k ∈ hashKeys, fieldOk r k = true)
    (hsub : ∀ k, k ∈ (flatten_score r).map Prod.fst → k ∈ hdr) :
    generate_score_hash (rowToRecord (readRow hdr (writeRow hdr (flatten_score r)))) =
      generate_score_hash r := by
  have hid := fieldOk_unpack (hfa "id" (by simp [hashKeys]))
  have huid := fieldOk_unpack (hfa "user_id" (by simp [hashKeys]))
  have hbid := fieldOk_unpack (hfa "beatmap_id" (by simp [hashKeys]))
  have hcat := fieldOk_unpack (hfa "created_at" (by simp [hashKeys]))
  rw [generate_score_hash, generate_score_hash,
    pyGetStr_roundtrip hdr r "id" hnd (by decide) hid.1 hid.2 (hsub "id"),
    pyGetStr_roundtrip hdr r "user_id" hnd (by decide) huid.1 huid.2 (hsub "user_id"),
    pyGetStr_roundtrip hdr r "beatmap_id" hnd (by decide) hbid.1 hbid.2 (hsub "beatmap_id"),
    pyGetStr_roundtrip hdr r "created_at" hnd (by decide) hcat.1 hcat.2 (hsub "created_at")]

theorem lookup_flatten_id (r : Record) (hg : goodRecord r = true) :
    lookupAssoc (flatten_score r) "id" = lookupAssoc r "id" := by
  obtain ⟨hnd, hfa, _⟩ := goodRecord_unpack hg
  have hid := fieldOk_unpack (hfa "id" (by simp [hashKeys]))
  exact lookup_flatten_hashKey r "id" hnd (by decide) (fun v hh => (hid.1 v hh).1) hid.2

theorem id_mem_flatten (r : Record) (hg : goodRecord r = true) :
    "id" ∈ (flatten_score r).map Prod.fst := by
  obtain ⟨v, hl, _, _, _⟩ := idOk_unpack (goodRecord_unpack hg).2.2.1
  apply mem_keys_of_lookupAssoc_some (v := v)
  rw [lookup_flatten_id r hg, hl]

theorem loadRowStep_written (hdr : List String) (r : Record)
    (acc : Finset String × Finset String) (hg : goodRecord r = true)
    (hsub : ∀ k, k ∈ (flatten_score r).map Prod.fst → k ∈ hdr) :
    loadRowStep acc (readRow hdr (writeRow hdr (flatten_score r))) =
      (insert (generate_score_hash r) acc.1, insert (pyGetStr r "id") acc.2) := by
  obtain ⟨hnd, hfa, hidok, _⟩ := goodRecord_unpack hg
  obtain ⟨v, hl, hvd, hvn, hvne⟩ := idOk_unpack hidok
  have hidhdr : "id" ∈ hdr := hsub "id" (id_mem_flatten r hg)
  have hcell : writeRowCell (flatten_score r) "id" = pyStr v := by
    rw [writeRowCell, lookup_flatten_id r hg, hl]
    show pyCsvCell v = pyStr v
    exact pyCsvCell_eq_pyStr hvn
  rw [loadRowStep, readRow_writeRow_lookup, if_pos hidhdr, hcell,
    hash_roundtrip hdr r hnd hfa hsub]
  have hpg : pyGetStr r "id" = pyStr v := by rw [pyGetStr, hl]
  simp [hvne, hpg]

theorem load_fold_written (hdr : List String) (A : List Record)
    (acc : Finset String × Finset String)
    (hA : ∀ r ∈ A, goodRecord r = true)
    (hsubA : ∀ r ∈ A, ∀ k, k ∈ (flatten_score r).map Prod.fst → k ∈ hdr) :
    (A.map (fun r => readRow hdr (writeRow hdr (flatten_score r)))).foldl loadRowStep acc =
      (acc.1 ∪ (A.map generate_score_hash).toFinset,
       acc.2 ∪ (A.map (fun r => pyGetStr r "id")).toFinset) := by
  induction A generalizing acc with
  | nil => simp
  | cons r rest ih =>
    rw [List.map_cons, List.foldl_cons,
      loadRowStep_written hdr r acc (hA r (by simp)) (hsubA r (by simp)),
      ih _ (fun x hx => hA x (by simp [hx])) (fun x hx => hsubA x (by simp [hx]))]
    simp only [List.map_cons, List.toFinset_cons]
    exact Prod.ext (by simp [Finset.insert_union, Finset.union_insert])
      (by simp [Finset.insert_union, Finset.union_insert])

/-- The acceptance test applied by the dedup loop to one score, against
the sets passed in: new iff the id is not in the existing id set and the
hash is not in the existing hash set. -/
def isNewB (existing_hashes existing_ids : Finset String) (score : Record) : Bool :=
  !(decide (pyGetStr score "id" ∈ existing_ids)) &&
    !(decide (generate_score_hash score ∈ existing_hashes))

/-- The hash set of a list of accepted scores. -/
def hashesOf (A : List Record) : Finset String :=
  (A.map generate_score_hash).toFinset

/-- The id set of a list of accepted scores. -/
def idsOf (A : List Record) : Finset String :=
  (A.map (fun r => pyGetStr r "id")).toFinset

theorem dedup_fold_spec (eh ei : Finset String) (scores : List Record)
    (acc : List Record × Finset String × Finset String) :
    scores.foldl (dedupStep eh ei) acc =
      (acc.1 ++ scores.filter (isNewB eh ei),
       acc.2.1 ∪ hashesOf (scores.filter (isNewB eh ei)),
       acc.2.2 ∪ idsOf (scores.filter (isNewB eh ei))) := by
  induction scores generalizing acc with
  | nil => simp [hashesOf, idsOf]
  | cons s rest ih =>
    rw [List.foldl_cons]
    by_cases h1 : pyGetStr s "id" ∈ ei
    · have hstep : dedupStep eh ei acc s = acc := by
        rw [dedupStep]
        simp [h1]
      have hnew : isNewB eh ei s = false := by simp [isNewB, h1]
      rw [hstep, ih, List.filter_cons_of_neg (by simp [hnew])]
    · by_cases h2 : generate_score_hash s ∈ eh
      · have hstep : dedupStep eh ei acc s = acc := by
          rw [dedupStep]
          simp [h1, h2]
        have hnew : isNewB eh ei s = false := by simp [isNewB, h2]
        rw [hstep, ih, List.filter_cons_of_neg (by simp [hnew])]
      · have hstep : dedupStep eh ei acc s =
            (acc.1 ++ [s], insert (generate_score_hash s) acc.2.1,
             insert (pyGetStr s "id") acc.2.2) := by
          rw [dedupStep]
          simp [h1, h2]
        have hnew : isNewB eh ei s = true := by simp [isNewB, h1, h2]
        rw [hstep, ih, List.filter_cons_of_pos (by simp [hnew])]
        refine Prod.ext (by simp) (Prod.ext ?_ ?_)
        · simp [hashesOf, Finset.insert_union, Finset.union_insert]
        · simp [idsOf, Finset.insert_union, Finset.union_insert]

theorem acceptedScores_eq_filter (eh ei : Finset String) (scores : List Record) :
    acceptedScores eh ei scores = scores.filter (isNewB eh ei) := by
  rw [acceptedScores, dedup_fold_spec]
  simp

theorem process_scores_of_accepted_empty (scores : List Record) (file : Option CsvFile)
    (eh ei : Finset String) (h : acceptedScores eh ei scores = []) :
    process_scores scores file eh ei = ⟨0, ∅, ∅, file⟩ := by
  rw [acceptedScores] at h
  rw [process_scores]
  by_cases hs : scores.isEmpty
  · rw [if_pos hs]
  · rw [if_neg hs]
    simp [h]

theorem process_scores_spec_none (scores : List Record) (eh ei : Finset String)
    (h : acceptedScores eh ei scores ≠ []) :
    process_scores scores none eh ei =
      ⟨(acceptedScores eh ei scores).length,
       hashesOf (acceptedScores eh ei scores),
       idsOf (acceptedScores eh ei scores),
       some ⟨sortedFields (batchFields ((acceptedScores eh ei scores).map flatten_score)),
         ((acceptedScores eh ei scores).map flatten_score).map
           (writeRow (sortedFields
             (batchFields ((acceptedScores eh ei scores).map flatten_score))))⟩⟩ := by
  have hs : ¬scores.isEmpty = true := by
    intro hs
    apply h
    rw [List.isEmpty_iff] at hs
    subst hs
    rfl
  rw [acceptedScores_eq_filter] at h ⊢
  rw [process_scores, if_neg hs]
  simp only [dedup_fold_spec, List.nil_append, Finset.empty_union]
  rw [if_neg (by simpa [List.isEmpty_iff] using h)]
  simp

theorem process_scores_spec_some (scores : List Record) (f : CsvFile)
    (eh ei : Finset String) (h : acceptedScores eh ei scores ≠ []) :
    process_scores scores (some f) eh ei =
      ⟨(acceptedScores eh ei scores).length,
       hashesOf (acceptedScores eh ei scores),
       idsOf (acceptedScores eh ei scores),
       some ⟨f.header,
         f.rows ++ ((acceptedScores eh ei scores).map flatten_score).map
           (writeRow (sortedFields
             (batchFields ((acceptedScores eh ei scores).map flatten_score) ∪
               f.header.toFinset)))⟩⟩ := by
  have hs : ¬scores.isEmpty = true := by
    intro hs
    apply h
    rw [List.isEmpty_iff] at hs
    subst hs
    rfl
  rw [acceptedScores_eq_filter] at h ⊢
  rw [process_scores, if_neg hs]
  simp only [dedup_fold_spec, List.nil_append, Finset.empty_union]
  rw [if_neg (by simpa [List.isEmpty_iff] using h)]
  simp

theorem runPoll_append (st : SysState) (a b : List (Option (List Record))) :
    runPoll st (a ++ b) = runPoll (runPoll st a) b := by
  rw [runPoll, runPoll, runPoll, List.foldl_append]

theorem pollUser_hashes_mono (st : SysState) (o : Option (List Record)) :
    st.hashes ⊆ (pollUser st o).hashes := by
  cases o with
  | none => exact Finset.Subset.refl _
  | some scores =>
    rw [pollUser]
    by_cases he : scores.isEmpty
    · rw [if_pos he]
    · rw [if_neg he]
      exact Finset.subset_union_left

theorem pollUser_ids_mono (st : SysState) (o : Option (List Record)) :
    st.ids ⊆ (pollUser st o).ids := by
  cases o with
  | none => exact Finset.Subset.refl _
  | some scores =>
    rw [pollUser]
    by_cases he : scores.isEmpty
    · rw [if_pos he]
    · rw [if_neg he]
      exact Finset.subset_union_left

theorem runPoll_hashes_mono (st : SysState) (bs : List (Option (List Record))) :
    st.hashes ⊆ (runPoll st bs).hashes := by
  induction bs generalizing st with
  | nil => exact Finset.Subset.refl _
  | cons o rest ih =>
    rw [runPoll, List.foldl_cons]
    exact (pollUser_hashes_mono st o).trans (ih (pollUser st o))

theorem runPoll_ids_mono (st : SysState) (bs : List (Option (List Record))) :
    st.ids ⊆ (runPoll st bs).ids := by
  induction bs generalizing st with
  | nil => exact Finset.Subset.refl _
  | cons o rest ih =>
    rw [runPoll, List.foldl_cons]
    exact (pollUser_ids_mono st o).trans (ih (pollUser st o))

/-- A record the current ledger already rejects: its id is in the id set
or its hash is in the hash set. -/
def covered (st : SysState) (r : Record) : Prop :=
  pyGetStr r "id" ∈ st.ids ∨ generate_score_hash r ∈ st.hashes

theorem covered_mono {st st' : SysState} {r : Record} (h : covered st r)
    (hh : st.hashes ⊆ st'.hashes) (hi : st.ids ⊆ st'.ids) : covered st' r := by
  rcases h with h | h
  · exact Or.inl (hi h)
  · exact Or.inr (hh h)

theorem not_isNewB_of_covered {st : SysState} {r : Record} (h : covered st r) :
    isNewB st.hashes st.ids r = false := by
  rcases h with h | h <;> simp [isNewB, h]

theorem covered_of_not_isNewB {st : SysState} {r : Record}
    (h : isNewB st.hashes st.ids r = false) : covered st r := by
  rw [isNewB] at h
  rcases Bool.and_eq_false_iff.1 h with h1 | h2
  · exact Or.inl (by simpa using h1)
  · exact Or.inr (by simpa using h2)

theorem pollUser_covered_eq (st : SysState) (o : Option (List Record))
    (h : ∀ r ∈ o.getD [], covered st r) : pollUser st o = st := by
  cases o with
  | none => rfl
  | some scores =>
    rw [pollUser]
    by_cases he : scores.isEmpty
    · rw [if_pos he]
    · rw [if_neg he]
      have hacc : acceptedScores st.hashes st.ids scores = [] := by
        rw [acceptedScores_eq_filter]
        apply List.filter_eq_nil_iff.2
        intro a ha
        rw [not_isNewB_of_covered (h a (by simpa using ha))]
        simp
      rw [process_scores_of_accepted_empty _ _ _ _ hacc]
      cases st
      simp

theorem runPoll_covered_eq (st : SysState) (bs : List (Option (List Record)))
    (h : ∀ o ∈ bs, ∀ r ∈ o.getD [], covered st r) : runPoll st bs = st := by
  induction bs with
  | nil => rfl
  | cons o rest ih =>
    rw [runPoll, List.foldl_cons, pollUser_covered_eq st o (h o (by simp))]
    exact ih (fun o' ho' => h o' (by simp [ho']))

theorem batchFields_aux (F : Finset String) (flats : List (List (String × Value)))
    (acc : Finset String) (hall : ∀ fl ∈ flats, (fl.map Prod.fst).toFinset = F) :
    flats.foldl (fun s fl => s ∪ (fl.map Prod.fst).toFinset) (acc ∪ F) = acc ∪ F := by
  induction flats generalizing acc with
  | nil => rfl
  | cons fl rest ih =>
    rw [List.foldl_cons, hall fl (by simp), Finset.union_assoc, Finset.union_self]
    exact ih acc (fun x hx => hall x (by simp [hx]))

theorem batchFields_const (F : Finset String) (flats : List (List (String × Value)))
    (hne : flats ≠ []) (hall : ∀ fl ∈ flats, (fl.map Prod.fst).toFinset = F) :
    batchFields flats = F := by
  cases flats with
  | nil => exact absurd rfl hne
  | cons fl rest =>
    rw [batchFields, List.foldl_cons, hall fl (by simp), Finset.empty_union]
    have := batchFields_aux F rest ∅ (fun x hx => hall x (by simp [hx]))
    rw [Finset.empty_union] at this
    exact this

theorem mem_sortedFields (s : Finset String) (k : String) :
    k ∈ sortedFields s ↔ k ∈ s := by
  obtain ⟨⟨l⟩, hn⟩ := s
  show k ∈ (l : List String).insertionSort pyLe ↔ _
  rw [List.mem_insertionSort]
  rfl

theorem sortedFields_toFinset (s : Finset String) : (sortedFields s).toFinset = s := by
  ext a
  rw [List.mem_toFinset, mem_sortedFields]

theorem sortedFields_sorted (s : Finset String) : (sortedFields s).Sorted pyLe := by
  obtain ⟨⟨l⟩, hn⟩ := s
  exact List.sorted_insertionSort pyLe l

theorem sortedFields_nodup (s : Finset String) : (sortedFields s).Nodup := by
  obtain ⟨⟨l⟩, hn⟩ := s
  exact (List.perm_insertionSort pyLe l).nodup_iff.2 hn

/-- The in-memory ledger coincides with what reloading the file yields. -/
def ledgerMatchesFile (st : SysState) : Prop :=
  load_existing_scores st.file = (st.hashes, st.ids)

/-- Whatever file is on disk carries the sorted header of the common
column set F. -/
def headerIsF (F : Finset String) (st : SysState) : Prop :=
  ∀ f, st.file = some f → f.header = sortedFields F

/-- Every record of a fetch result is well shaped and flattens to the
common column set F. -/
def goodBatch (F : Finset String) (o : Option (List Record)) : Prop :=
  ∀ r ∈ o.getD [], goodRecord r = true ∧ ((flatten_score r).map Prod.fst).toFinset = F

theorem pollUser_invariant (F : Finset String) (st : SysState) (o : Option (List Record))
    (hinv : ledgerMatchesFile st) (hhdr : headerIsF F st) (hgb : goodBatch F o) :
    ledgerMatchesFile (pollUser st o) ∧ headerIsF F (pollUser st o) ∧
      ∀ r ∈ o.getD [], covered (pollUser st o) r := by
  cases o with
  | none => exact ⟨hinv, hhdr, by simp⟩
  | some scores =>
    by_cases he : scores.isEmpty = true
    · have hsc : scores = [] := List.isEmpty_iff.1 he
      subst hsc
      have hp : pollUser st (some []) = st := rfl
      rw [hp]
      exact ⟨hinv, hhdr, by simp⟩
    · by_cases hAe : acceptedScores st.hashes st.ids scores = []
      · have hp : pollUser st (some scores) = st := by
          rw [pollUser, if_neg he, process_scores_of_accepted_empty _ _ _ _ hAe]
          cases st
          simp
        rw [hp]
        refine ⟨hinv, hhdr, ?_⟩
        intro r hr
        rw [acceptedScores_eq_filter] at hAe
        have hnf := List.filter_eq_nil_iff.1 hAe r (by simpa using hr)
        exact covered_of_not_isNewB (by simpa using hnf)
      · have hgood : ∀ r ∈ acceptedScores st.hashes st.ids scores, goodRecord r = true := by
          intro r hr
          rw [acceptedScores_eq_filter] at hr
          exact (hgb r (by simpa using List.mem_of_mem_filter hr)).1
        have hkeys : ∀ r ∈ acceptedScores st.hashes st.ids scores,
            ((flatten_score r).map Prod.fst).toFinset = F := by
          intro r hr
          rw [acceptedScores_eq_filter] at hr
          exact (hgb r (by simpa using List.mem_of_mem_filter hr)).2
        have hbf : batchFields ((acceptedScores st.hashes st.ids scores).map flatten_score) =
            F := by
          apply batchFields_const F
          · simpa using hAe
          · intro fl hfl
            obtain ⟨r, hr, rfl⟩ := List.mem_map.1 hfl
            exact hkeys r hr
        have hsubA : ∀ r ∈ acceptedScores st.hashes st.ids scores,
            ∀ k, k ∈ (flatten_score r).map Prod.fst → k ∈ sortedFields F := by
          intro r hr k hk
          rw [mem_sortedFields, ← hkeys r hr]
          simpa using hk
        have hcov : ∀ (st' : SysState),
            st'.hashes = st.hashes ∪ hashesOf (acceptedScores st.hashes st.ids scores) →
            st'.ids = st.ids ∪ idsOf (acceptedScores st.hashes st.ids scores) →
            ∀ r ∈ (some scores).getD [], covered st' r := by
          intro st' hh hi r hr
          by_cases hn : isNewB st.hashes st.ids r = true
          · have hrA : r ∈ acceptedScores st.hashes st.ids scores := by
              rw [acceptedScores_eq_filter]
              exact List.mem_filter.2 ⟨by simpa using hr, hn⟩
            refine Or.inr ?_
            rw [hh]
            refine Finset.mem_union_right _ ?_
            rw [hashesOf, List.mem_toFinset]
            exact List.mem_map.2 ⟨r, hrA, rfl⟩
          · refine covered_mono (covered_of_not_isNewB (by simpa using hn)) ?_ ?_
            · rw [hh]; exact Finset.subset_union_left
            · rw [hi]; exact Finset.subset_union_left
        cases hfile : st.file with
        | none =>
          have hse : (∅, ∅) = ((st.hashes, st.ids) : Finset String × Finset String) := by
            have h0 := hinv
            rw [ledgerMatchesFile, hfile] at h0
            exact h0
          have hse1 : st.hashes = ∅ := (congrArg Prod.fst hse).symm
          have hse2 : st.ids = ∅ := (congrArg Prod.snd hse).symm
          have hst : pollUser st (some scores) =
              ⟨st.hashes ∪ hashesOf (acceptedScores st.hashes st.ids scores),
               st.ids ∪ idsOf (acceptedScores st.hashes st.ids scores),
               some ⟨sortedFields F,
                 ((acceptedScores st.hashes st.ids scores).map flatten_score).map
                   (writeRow (sortedFields F))⟩⟩ := by
            rw [pollUser, if_neg he, hfile, process_scores_spec_none _ _ _ hAe]
            simp [hbf]
          rw [hst]
          refine ⟨?_, ?_, hcov _ rfl rfl⟩
          · show load_existing_scores (some _) = _
            simp only [load_existing_scores]
            have hrw : (((acceptedScores st.hashes st.ids scores).map flatten_score).map
                (writeRow (sortedFields F))).map (readRow (sortedFields F)) =
                (acceptedScores st.hashes st.ids scores).map
                  (fun r => readRow (sortedFields F) (writeRow (sortedFields F)
                    (flatten_score r))) := by
              rw [List.map_map, List.map_map]
              rfl
            rw [hrw, load_fold_written (sortedFields F) _ _ hgood hsubA]
            rw [hse1, hse2]
            simp [hashesOf, idsOf]
          · intro g hg
            have hg2 := Option.some.inj hg
            rw [← hg2]
        | some f =>
          have hf : f.header = sortedFields F := hhdr f hfile
          have hfn : sortedFields
              (batchFields ((acceptedScores st.hashes st.ids scores).map flatten_score) ∪
                f.header.toFinset) = f.header := by
            rw [hbf, hf, sortedFields_toFinset, Finset.union_self]
          have hst : pollUser st (some scores) =
              ⟨st.hashes ∪ hashesOf (acceptedScores st.hashes st.ids scores),
               st.ids ∪ idsOf (acceptedScores st.hashes st.ids scores),
               some ⟨f.header,
                 f.rows ++ ((acceptedScores st.hashes st.ids scores).map flatten_score).map
                   (writeRow f.header)⟩⟩ := by
            rw [pollUser, if_neg he, hfile, process_scores_spec_some _ _ _ _ hAe]
            simp [hfn]
          rw [hst]
          refine ⟨?_, ?_, hcov _ rfl rfl⟩
          · show load_existing_scores (some _) = _
            simp only [load_existing_scores, List.map_append, List.foldl_append]
            have hold : (f.rows.map (readRow f.header)).foldl loadRowStep (∅, ∅) =
                (st.hashes, st.ids) := by
              have h0 := hinv
              rw [ledgerMatchesFile, hfile] at h0
              simpa [load_existing_scores] using h0
            rw [hold]
            have hrw : (((acceptedScores st.hashes st.ids scores).map flatten_score).map
                (writeRow f.header)).map (readRow f.header) =
                (acceptedScores st.hashes st.ids scores).map
                  (fun r => readRow f.header (writeRow f.header (flatten_score r))) := by
              rw [List.map_map, List.map_map]
              rfl
            rw [hrw, load_fold_written f.header _ _ hgood
              (fun r hr k hk => by rw [hf]; exact hsubA r hr k hk)]
            simp [hashesOf, idsOf]
          · intro g hg
            have hg2 := Option.some.inj hg
            rw [← hg2, hf]

theorem runPoll_invariant (F : Finset String) (st : SysState)
    (bs : List (Option (List Record)))
    (hinv : ledgerMatchesFile st) (hhdr : headerIsF F st)
    (hgb : ∀ o ∈ bs, goodBatch F o) :
    ledgerMatchesFile (runPoll st bs) ∧ headerIsF F (runPoll st bs) ∧
      ∀ o ∈ bs, ∀ r ∈ o.getD [], covered (runPoll st bs) r := by
  induction bs generalizing st with
  | nil => exact ⟨hinv, hhdr, by simp⟩
  | cons o rest ih =>
    obtain ⟨h1, h2, h3⟩ := pollUser_invariant F st o hinv hhdr (hgb o (by simp))
    obtain ⟨g1, g2, g3⟩ := ih (pollUser st o) h1 h2 (fun o' ho' => hgb o' (by simp [ho']))
    have hrun : runPoll st (o :: rest) = runPoll (pollUser st o) rest := by
      rw [runPoll, runPoll, List.foldl_cons]
    rw [hrun]
    refine ⟨g1, g2, ?_⟩
    intro o' ho' r hr
    rcases List.mem_cons.1 ho' with rfl | ho2
    · exact covered_mono (h3 r hr) (runPoll_hashes_mono _ _) (runPoll_ids_mono _ _)
    · exact g3 o' ho2 r hr

/-- The number N of top-level scalar fields of a record. -/
def scalarFieldCount (r : Record) : Nat :=
  (r.filter (fun e => isScalarV e.2)).length

/-- The sum of the subkey counts of the nested-mapping fields. -/
def dictSubkeyCount (r : Record) : Nat :=
  (r.map (fun e =>
    match e.2 with
    | Value.vdict d => d.length
    | _ => 0)).sum

/-- The number of tag-list fields: entries named mods holding a list. -/
def modsListCount (r : Record) : Nat :=
  (r.filter (fun e => decide (e.1 = "mods") && isListV e.2)).length

theorem keys_insertAssoc_not_mem {β : Type} (l : List (String × β)) (k : String) (v : β)
    (h : k ∉ l.map Prod.fst) :
    (insertAssoc l k v).map Prod.fst = l.map Prod.fst ++ [k] := by
  induction l with
  | nil => rfl
  | cons e rest ih =>
    obtain ⟨k0, v0⟩ := e
    simp only [List.map_cons, List.mem_cons] at h
    push_neg at h
    have hne : ¬k0 = k := fun hh => h.1 hh.symm
    simp [insertAssoc, hne, ih h.2]

theorem keys_dictFold (sub : List (String × Value)) (acc : List (String × Value))
    (key : String)
    (hdisj : ∀ c ∈ sub.map (fun sv => key ++ "_" ++ sv.1), c ∉ acc.map Prod.fst)
    (hnd : (sub.map (fun sv => key ++ "_" ++ sv.1)).Nodup) :
    (sub.foldl (fun fl sv => insertAssoc fl (key ++ "_" ++ sv.1) sv.2) acc).map Prod.fst =
      acc.map Prod.fst ++ sub.map (fun sv => key ++ "_" ++ sv.1) := by
  induction sub generalizing acc with
  | nil => simp
  | cons sv rest ih =>
    simp only [List.map_cons] at hdisj hnd ⊢
    have h1 : key ++ "_" ++ sv.1 ∉ acc.map Prod.fst := hdisj _ (by simp)
    have hd2 : ∀ c ∈ rest.map (fun sv => key ++ "_" ++ sv.1),
        c ∉ (insertAssoc acc (key ++ "_" ++ sv.1) sv.2).map Prod.fst := by
      intro c hc
      rw [keys_insertAssoc_not_mem _ _ _ h1]
      intro hmem
      rcases List.mem_append.1 hmem with hm | hm
      · exact hdisj c (by simp [hc]) hm
      · rw [List.mem_singleton] at hm
        subst hm
        exact (List.nodup_cons.1 hnd).1 hc
    rw [List.foldl_cons, ih _ hd2 (List.nodup_cons.1 hnd).2,
      keys_insertAssoc_not_mem _ _ _ h1, List.append_assoc]
    rfl

theorem keys_flattenEntry (acc : List (String × Value)) (e : String × Value)
    (hdisj : ∀ c ∈ producedColsEntry e, c ∉ acc.map Prod.fst)
    (hnd : (producedColsEntry e).Nodup) :
    (flattenEntry acc e).map Prod.fst = acc.map Prod.fst ++ producedColsEntry e := by
  obtain ⟨key, v⟩ := e
  cases v with
  | vdict d => exact keys_dictFold d acc key hdisj hnd
  | vlist l =>
    by_cases hm : key = "mods"
    · subst hm
      rw [show flattenEntry acc ("mods", Value.vlist l) = insertAssoc acc "mods"
          (Value.vstr (String.intercalate "," ((strValues (modAcronyms l)).getD [])))
          from rfl,
        keys_insertAssoc_not_mem _ _ _ (hdisj _ (by simp [producedColsEntry]))]
      rfl
    · simp only [flattenEntry, if_neg hm]
      rw [keys_insertAssoc_not_mem _ _ _ (hdisj _ (by simp [producedColsEntry]))]
      rfl
  | vstr s =>
    rw [show flattenEntry acc (key, Value.vstr s) = insertAssoc acc key (Value.vstr s)
      from rfl, keys_insertAssoc_not_mem _ _ _ (hdisj _ (by simp [producedColsEntry]))]
    rfl
  | vint n =>
    rw [show flattenEntry acc (key, Value.vint n) = insertAssoc acc key (Value.vint n)
      from rfl, keys_insertAssoc_not_mem _ _ _ (hdisj _ (by simp [producedColsEntry]))]
    rfl
  | vbool b =>
    rw [show flattenEntry acc (key, Value.vbool b) = insertAssoc acc key (Value.vbool b)
      from rfl, keys_insertAssoc_not_mem _ _ _ (hdisj _ (by simp [producedColsEntry]))]
    rfl
  | vnull =>
    rw [show flattenEntry acc (key, Value.vnull) = insertAssoc acc key Value.vnull
      from rfl, keys_insertAssoc_not_mem _ _ _ (hdisj _ (by simp [producedColsEntry]))]
    rfl

theorem keys_flattenFold (entries : Record) (acc : List (String × Value))
    (hdisj : ∀ c ∈ producedCols entries, c ∉ acc.map Prod.fst)
    (hnd : (producedCols entries).Nodup) :
    (entries.foldl flattenEntry acc).map Prod.fst =
      acc.map Prod.fst ++ producedCols entries := by
  induction entries generalizing acc with
  | nil => simp [producedCols]
  | cons e rest ih =>
    rw [producedCols_cons] at hdisj hnd ⊢
    have hd1 : ∀ c ∈ producedColsEntry e, c ∉ acc.map Prod.fst :=
      fun c hc => hdisj c (List.mem_append.2 (Or.inl hc))
    have hn1 : (producedColsEntry e).Nodup := List.Nodup.of_append_left hnd
    have hdisj2 : ∀ c ∈ producedCols rest, c ∉ (flattenEntry acc e).map Prod.fst := by
      intro c hc
      rw [keys_flattenEntry acc e hd1 hn1]
      intro hmem
      rcases List.mem_append.1 hmem with hm | hm
      · exact hdisj c (List.mem_append.2 (Or.inr hc)) hm
      · exact (List.disjoint_of_nodup_append hnd) hm hc
    rw [List.foldl_cons, ih _ hdisj2 (List.Nodup.of_append_right hnd),
      keys_flattenEntry acc e hd1 hn1, List.append_assoc]

theorem keys_flatten (r : Record) (hnd : (producedCols r).Nodup) :
    (flatten_score r).map Prod.fst = producedCols r := by
  have h := keys_flattenFold r [] (by simp) hnd
  simpa [flatten_score] using h

theorem scalarFieldCount_cons (e : String × Value) (r : Record) :
    scalarFieldCount (e :: r) =
      (if isScalarV e.2 = true then 1 else 0) + scalarFieldCount r := by
  by_cases h : isScalarV e.2 = true
  · simp [scalarFieldCount, List.filter_cons, h]
    omega
  · simp [scalarFieldCount, List.filter_cons, h]

theorem dictSubkeyCount_cons (e : String × Value) (r : Record) :
    dictSubkeyCount (e :: r) =
      (match e.2 with
       | Value.vdict d => d.length
       | _ => 0) + dictSubkeyCount r := by
  simp [dictSubkeyCount]

theorem modsListCount_cons (e : String × Value) (r : Record) :
    modsListCount (e :: r) =
      (if (decide (e.1 = "mods") && isListV e.2) = true then 1 else 0) +
        modsListCount r := by
  by_cases h : (decide (e.1 = "mods") && isListV e.2) = true
  · simp [modsListCount, List.filter_cons, h]
    omega
  · simp [modsListCount, List.filter_cons, h]

theorem producedCols_length_shape (r : Record)
    (hshape : r.all (fun e => isScalarV e.2 || isDictV e.2 ||
      (decide (e.1 = "mods") && isListV e.2)) = true) :
    (producedCols r).length =
      scalarFieldCount r + dictSubkeyCount r + modsListCount r := by
  induction r with
  | nil => rfl
  | cons e rest ih =>
    rw [List.all_cons, Bool.and_eq_true] at hshape
    have ihh := ih hshape.2
    obtain ⟨key, v⟩ := e
    rw [producedCols_cons, List.length_append, scalarFieldCount_cons,
      dictSubkeyCount_cons, modsListCount_cons, ihh]
    cases v with
    | vdict d =>
      simp [producedColsEntry, isScalarV, isDictV, isListV]
      omega
    | vlist l =>
      have hk : key = "mods" := by
        have h1 := hshape.1
        simp [isScalarV, isDictV, isListV] at h1
        exact h1
      subst hk
      simp [producedColsEntry, isScalarV, isDictV, isListV]
      omega
    | vstr s =>
      simp [producedColsEntry, isScalarV, isDictV, isListV]
      omega
    | vint n =>
      simp [producedColsEntry, isScalarV, isDictV, isListV]
      omega
    | vbool b =>
      simp [producedColsEntry, isScalarV, isDictV, isListV]
      omega
    | vnull =>
      simp [producedColsEntry, isScalarV, isDictV, isListV]
      omega

theorem nodup_pc_split (r₁ : Record) (e : String × Value) (r₂ : Record)
    (hnd : (producedCols (r₁ ++ e :: r₂)).Nodup) (c : String)
    (hc : c ∈ producedColsEntry e) : c ∉ producedCols r₂ := by
  rw [show r₁ ++ e :: r₂ = r₁ ++ ([e] ++ r₂) from rfl, producedCols_append,
    producedCols_append] at hnd
  have h2 := List.Nodup.of_append_right hnd
  have hdis := List.disjoint_of_nodup_append h2
  apply hdis
  simpa [producedCols, producedColsEntry] using hc

theorem lookup_flatten_mods_empty (r : Record) (hnd : (producedCols r).Nodup)
    (hmem : ("mods", Value.vlist []) ∈ r) :
    lookupAssoc (flatten_score r) "mods" = some (Value.vstr "") := by
  obtain ⟨r₁, r₂, hsplit⟩ := List.append_of_mem hmem
  subst hsplit
  have hnotin : "mods" ∉ producedCols r₂ :=
    nodup_pc_split r₁ _ r₂ hnd "mods" (by simp [producedColsEntry])
  rw [flatten_score, List.foldl_append, List.foldl_cons,
    lookup_flattenFold_not_produced r₂ _ _ hnotin]
  rw [show flattenEntry (r₁.foldl flattenEntry []) ("mods", Value.vlist []) =
    insertAssoc (r₁.foldl flattenEntry []) "mods" (Value.vstr "") from rfl]
  exact lookupAssoc_insertAssoc_self _ _ _

theorem lookup_flatten_other_list (r : Record) (k : String) (l : List Value)
    (hnd : (producedCols r).Nodup) (hk : k ≠ "mods") (hmem : (k, Value.vlist l) ∈ r) :
    lookupAssoc (flatten_score r) k = some (Value.vlist l) := by
  obtain ⟨r₁, r₂, hsplit⟩ := List.append_of_mem hmem
  subst hsplit
  have hnotin : k ∉ producedCols r₂ :=
    nodup_pc_split r₁ _ r₂ hnd k (by simp [producedColsEntry])
  rw [flatten_score, List.foldl_append, List.foldl_cons,
    lookup_flattenFold_not_produced r₂ _ _ hnotin,
    flattenEntry_passthrough _ k (Value.vlist l) rfl (fun hm => absurd hm hk)]
  exact lookupAssoc_insertAssoc_self _ _ _

theorem process_added_eq (scores : List Record) (file : Option CsvFile)
    (eh ei : Finset String) :
    (process_scores scores file eh ei).added = (acceptedScores eh ei scores).length := by
  by_cases h : acceptedScores eh ei scores = []
  · rw [process_scores_of_accepted_empty _ _ _ _ h, h]
    rfl
  · cases file with
    | none => rw [process_scores_spec_none _ _ _ h]
    | some f => rw [process_scores_spec_some _ _ _ _ h]

theorem scalarFieldsOk_fieldOk {r : Record} (h : scalarFieldsOk r = true) :
    ∀ k ∈ hashKeys, fieldOk r k = true := by
  rw [scalarFieldsOk, List.all_eq_true] at h
  intro k hk
  have h2 := h k hk
  rw [Bool.and_eq_true] at h2
  rw [fieldOk, Bool.and_eq_true]
  refine ⟨?_, h2.2⟩
  have h3 := h2.1
  cases hl : lookupAssoc r k with
  | none => rfl
  | some v =>
    rw [hl] at h3
    have h4 : (isScalarV v && !(isNullV v)) = true := h3
    rw [Bool.and_eq_true] at h4
    have h5 : isScalarV v = true := h4.1
    rw [isScalarV, Bool.and_eq_true] at h5
    show (!(isDictV v) && !(isNullV v)) = true
    rw [Bool.and_eq_true]
    exact ⟨h5.1, h4.2⟩

theorem flattenEntryE_eq (flat : List (String × Value)) (e : String × Value)
    (h : flattenEntryOk e = true) :
    flattenEntryE flat e = some (flattenEntry flat e) := by
  obtain ⟨key, v⟩ := e
  cases v with
  | vdict d => rfl
  | vstr s => rfl
  | vint n => rfl
  | vbool b => rfl
  | vnull => rfl
  | vlist l =>
    by_cases hm : key = "mods"
    · subst hm
      have h2 : (strValues (modAcronyms l)).isSome = true := by
        have h3 : (if ("mods" : String) = "mods" then (strValues (modAcronyms l)).isSome
            else true) = true := h
        rwa [if_pos rfl] at h3
      obtain ⟨ss, hss⟩ := Option.isSome_iff_exists.1 h2
      show (match strValues (modAcronyms l) with
        | some ss =>
            some (insertAssoc flat "mods" (Value.vstr (String.intercalate "," ss)))
        | none => none) =
        some (insertAssoc flat "mods"
          (Value.vstr (String.intercalate "," ((strValues (modAcronyms l)).getD []))))
      rw [hss]
      rfl
    · simp [flattenEntryE, flattenEntry, hm]

theorem foldlM_flattenEntryE_eq (r : Record)
    (hall : ∀ e ∈ r, flattenEntryOk e = true) :
    ∀ acc : List (String × Value),
      List.foldlM flattenEntryE acc r = some (r.foldl flattenEntry acc) := by
  induction r with
  | nil => intro acc; rfl
  | cons e rest ih =>
    intro acc
    rw [List.foldlM_cons, List.foldl_cons, flattenEntryE_eq acc e (hall e (by simp))]
    exact ih (fun x hx => hall x (by simp [hx])) (flattenEntry acc e)

theorem flattenScoreE_eq (r : Record) (h : modsJoinOk r = true) :
    flattenScoreE r = some (flatten_score r) := by
  rw [modsJoinOk, List.all_eq_true] at h
  exact foldlM_flattenEntryE_eq r h []

/-- The concrete record of the dedup scenario of the spec: id 100,
user 5, beatmap 9, created at 2024-01-01T00:00:00Z. -/
def scoreA : Record :=
  [("id", Value.vint 100), ("user_id", Value.vint 5), ("beatmap_id", Value.vint 9),
   ("created_at", Value.vstr "2024-01-01T00:00:00Z")]

/-- The same logical record as scoreA with one extra field, standing
for its occurrence in the second fetch result. -/
def scoreA2 : Record :=
  scoreA ++ [("accuracy", Value.vstr "0.9812")]

/-- A record whose user field is a nested dict carrying an id subkey:
flattening emits a user_id column that overwrites the top-level
user_id value. -/
def scoreUser : Record :=
  [("id", Value.vint 1), ("user_id", Value.vint 5), ("beatmap_id", Value.vint 9),
   ("created_at", Value.vstr "t"), ("user", Value.vdict [("id", Value.vint 7)])]

/-- First cycle record of the schema-widening run. -/
def scoreW1 : Record :=
  [("id", Value.vint 1), ("user_id", Value.vint 1), ("beatmap_id", Value.vint 1),
   ("created_at", Value.vstr "t")]

/-- Second cycle record, introducing an accuracy column that sorts
before every column of the first cycle. -/
def scoreW2 : Record :=
  [("accuracy", Value.vstr "0.5"), ("id", Value.vint 2), ("user_id", Value.vint 1),
   ("beatmap_id", Value.vint 2), ("created_at", Value.vstr "u")]

/-- A record with two scalar fields, one nested dict of two subkeys and
a two-element mods list. -/
def scoreMods : Record :=
  [("id", Value.vint 1), ("accuracy", Value.vstr "0.9"),
   ("statistics", Value.vdict [("count_300", Value.vint 10), ("count_100", Value.vint 2)]),
   ("mods", Value.vlist [Value.vdict [("acronym", Value.vstr "HD")],
     Value.vdict [("acronym", Value.vstr "DT")]])]

/-- A record with an empty mods list. -/
def scoreEmptyMods : Record :=
  [("id", Value.vint 3), ("mods", Value.vlist [])]

/-- A record with a list under a key other than mods. -/
def scoreOtherList : Record :=
  [("id", Value.vint 4), ("tags", Value.vlist [Value.vstr "x", Value.vstr "y"])]

/-- A record whose mods list carries a non-string acronym: the source
raises TypeError inside the join and flattening produces no row. -/
def scoreBadMods : Record :=
  [("id", Value.vint 1),
   ("mods", Value.vlist [Value.vdict [("acronym", Value.vint 3)]])]

/-- Claim C1: a fetched record is accepted as new by process_scores iff
its string-coerced id is absent from the existing id set and its
fingerprint is absent from the existing fingerprint set; the number of
rows appended equals the number of accepted records; and in the
concrete two-fetch scenario of the spec (both fetch results carrying a
record with id 100, user_id 5, beatmap_id 9,
created_at 2024-01-01T00:00:00Z, the ledger updated between the two
process_scores calls) exactly one row for that record stands in the
output file. -/
theorem claim_C1_dedup_accept_iff :
    (∀ (eh ei : Finset String) (scores : List Record) (s : Record),
      s ∈ acceptedScores eh ei scores ↔
        s ∈ scores ∧ pyGetStr s "id" ∉ ei ∧ generate_score_hash s ∉ eh) ∧
    (∀ (eh ei : Finset String) (file : Option CsvFile) (scores : List Record),
      (process_scores scores file eh ei).added = (acceptedScores eh ei scores).length) ∧
    (runPoll ⟨∅, ∅, none⟩ [some [scoreA], some [scoreA2]]).file =
      some ⟨["beatmap_id", "created_at", "id", "user_id"],
        [["9", "2024-01-01T00:00:00Z", "100", "5"]]⟩ := by
  refine ⟨?_, fun eh ei file scores => process_added_eq scores file eh ei, by decide⟩
  intro eh ei scores s
  rw [acceptedScores_eq_filter, List.mem_filter, isNewB]
  simp [and_assoc]

/-- Claim C2 (code bug): after an unexpected exception escapes the
polling loop, the except handler refreshes the credential once; on a
failed refresh the process exits with an error just as the spec says,
but on a successful refresh main simply returns and the process
terminates, because the try/except block stands outside the while loop;
the driver can never reach the polling state again, contradicting the
REAUTHENTICATING transition the spec prescribes (modelled by
specReauthNext). -/
theorem claim_C2_reauth_terminates :
    handleUnexpectedError true = DriverNext.exitOk ∧
    handleUnexpectedError false = DriverNext.exitErr ∧
    (∀ b, handleUnexpectedError b ≠ DriverNext.polling) ∧
    specReauthNext true = DriverNext.polling ∧
    handleUnexpectedError true ≠ specReauthNext true := by decide

/-- Claim C7: the ledger loader returns two empty sets for a missing or
empty file, and when reading raises after some prefix of rows has been
parsed it returns the sets accumulated from that prefix instead of
aborting, exactly the sets a successful load of the truncated file
would return. -/
theorem claim_C7_loader_recoverable :
    load_existing_scores none = (∅, ∅) ∧
    (∀ n, load_existing_scores_err none n = (∅, ∅)) ∧
    (∀ (f : CsvFile) (n : Nat),
      load_existing_scores_err (some f) n =
        load_existing_scores (some ⟨f.header, f.rows.take n⟩)) :=
  ⟨rfl, fun _ => rfl, fun _ _ => rfl⟩

/-- Claim C8: a failed fetch (a None result) leaves the state untouched
and the rest of the cycle proceeds exactly as it would without the
failed subject; concretely, when the first subject fails and the second
succeeds, the records of the second are still written and the loop
reaches the sleep with the new file on disk. -/
theorem claim_C8_cycle_isolation :
    (∀ st : SysState, pollUser st none = st) ∧
    (∀ (st : SysState) (pre post : List (Option (List Record))),
      runPoll st (pre ++ none :: post) = runPoll st (pre ++ post)) ∧
    (runPoll ⟨∅, ∅, none⟩ [none, some [scoreA]]).file =
      some ⟨["beatmap_id", "created_at", "id", "user_id"],
        [["9", "2024-01-01T00:00:00Z", "100", "5"]]⟩ := by
  refine ⟨fun st => rfl, ?_, by decide⟩
  intro st pre post
  rw [runPoll_append, runPoll_append, runPoll, List.foldl_cons]
  rfl

/-- Claim C9: across any run, later ledger states contain earlier ones:
the hash set and the id set of the state reached after any prefix of
the fetch sequence are subsets of the sets reached after the whole
sequence, and the seeded initial sets are subsets of every reached
state; nothing is ever removed. -/
theorem claim_C9_ledger_monotone (st : SysState)
    (pre post : List (Option (List Record))) :
    (runPoll st pre).hashes ⊆ (runPoll st (pre ++ post)).hashes ∧
    (runPoll st pre).ids ⊆ (runPoll st (pre ++ post)).ids ∧
    st.hashes ⊆ (runPoll st pre).hashes ∧
    st.ids ⊆ (runPoll st pre).ids := by
  rw [runPoll_append]
  exact ⟨runPoll_hashes_mono _ _, runPoll_ids_mono _ _,
    runPoll_hashes_mono _ _, runPoll_ids_mono _ _⟩

/-- Claim C3 counterexample: scoreUser carries all four identity fields
as top-level scalars, yet the fingerprint set reloaded from the file it
was flattened and written to differs from its fresh fingerprint: the
nested user dict emits a user_id column that overwrites the top-level
user_id during flattening, so the re-read row hashes differently. -/
theorem claim_C3_counterexample :
    (hashKeys.all (fun k =>
      match lookupAssoc scoreUser k with
      | some v => isScalarV v
      | none => false) = true) ∧
    (load_existing_scores (process_scores [scoreUser] none ∅ ∅).file).1 ≠
      {generate_score_hash scoreUser} := by decide

/-- Claim C3 (amended): for a record with unique keys whose four
identity fields are top-level non-null scalars (the csv module writes
None as the empty string, so a null field would not round-trip), no
nested-mapping field emitting a column named like one of them, and a
mods list the program can join (so flattening does not raise and
matches the total model), the fingerprint set obtained by flattening
the record, writing it to a fresh file and reloading that file is
exactly the singleton of the fresh fingerprint: the fingerprint
survives the write and re-read round trip, the string coercion making a
numeric id and its textual re-read form hash identically. -/
theorem claim_C3_fingerprint_roundtrip (r : Record)
    (hnd : (r.map Prod.fst).Nodup) (hsf : scalarFieldsOk r = true)
    (hmj : modsJoinOk r = true) :
    flattenScoreE r = some (flatten_score r) ∧
    (load_existing_scores (process_scores [r] none ∅ ∅).file).1 =
      {generate_score_hash r} := by
  refine ⟨flattenScoreE_eq r hmj, ?_⟩
  have hacc : acceptedScores ∅ ∅ [r] = [r] := by
    rw [acceptedScores_eq_filter]
    simp [isNewB]
  have hne : acceptedScores ∅ ∅ [r] ≠ [] := by
    rw [hacc]
    simp
  rw [process_scores_spec_none _ _ _ hne, hacc]
  have hsub : ∀ k, k ∈ (flatten_score r).map Prod.fst →
      k ∈ sortedFields (batchFields [flatten_score r]) := by
    intro k hk
    rw [mem_sortedFields]
    have hbf : batchFields [flatten_score r] =
        ((flatten_score r).map Prod.fst).toFinset := by
      simp [batchFields]
    rw [hbf, List.mem_toFinset]
    exact hk
  simp only [List.map_cons, List.map_nil, load_existing_scores, List.foldl_cons,
    List.foldl_nil]
  rw [loadRowStep, readRow_writeRow_lookup]
  rw [hash_roundtrip _ r hnd (scalarFieldsOk_fieldOk hsf) hsub]
  simp

/-- Witness for the amended claim C3 at the concrete record scoreA. -/
theorem claim_C3_fingerprint_roundtrip_witness :
    ((scoreA.map Prod.fst).Nodup ∧ scalarFieldsOk scoreA = true ∧
      modsJoinOk scoreA = true) ∧
    (flattenScoreE scoreA = some (flatten_score scoreA) ∧
     (load_existing_scores (process_scores [scoreA] none ∅ ∅).file).1 =
       {generate_score_hash scoreA}) :=
  ⟨⟨by decide, by decide, by decide⟩,
   claim_C3_fingerprint_roundtrip scoreA (by decide) (by decide) (by decide)⟩

/-- Claim C5 counterexample: scoreBadMods satisfies the shape
hypotheses of the claim (distinct produced columns, every field a
scalar, a dict or the one mods tag-list), yet its only acronym is the
integer 3, so the source raises TypeError inside the join and
flattening produces no row at all, let alone one with the stated
column count: flattening is not total. -/
theorem claim_C5_counterexample :
    ((producedCols scoreBadMods).Nodup ∧
      scoreBadMods.all (fun e => isScalarV e.2 || isDictV e.2 ||
        (decide (e.1 = "mods") && isListV e.2)) = true ∧
      modsListCount scoreBadMods = 1) ∧
    flattenScoreE scoreBadMods = none :=
  ⟨⟨by decide, by decide, by decide⟩, rfl⟩

/-- Claim C5 (amended): provided every acronym carried by the mods list
is a string (otherwise the join raises TypeError and the program
produces no row), flattening succeeds and returns the row of the total
model; for a record made of scalar fields, nested-mapping fields and
exactly one mods tag-list, all produced column names distinct, that row
has exactly N plus the sum of the subkey counts plus one columns; an
empty mods list still yields the mods column holding the empty string;
a list under any other key is passed through unchanged. -/
theorem claim_C5_flatten_columns :
    (∀ r : Record, modsJoinOk r = true →
      flattenScoreE r = some (flatten_score r)) ∧
    (∀ r : Record, modsJoinOk r = true → (producedCols r).Nodup →
      r.all (fun e => isScalarV e.2 || isDictV e.2 ||
        (decide (e.1 = "mods") && isListV e.2)) = true →
      modsListCount r = 1 →
      (flatten_score r).length = scalarFieldCount r + dictSubkeyCount r + 1) ∧
    (∀ r : Record, modsJoinOk r = true → (producedCols r).Nodup →
      ("mods", Value.vlist []) ∈ r →
      lookupAssoc (flatten_score r) "mods" = some (Value.vstr "")) ∧
    (∀ (r : Record) (k : String) (l : List Value), modsJoinOk r = true →
      (producedCols r).Nodup → k ≠ "mods" → (k, Value.vlist l) ∈ r →
      lookupAssoc (flatten_score r) k = some (Value.vlist l)) := by
  refine ⟨flattenScoreE_eq, ?_, ?_, ?_⟩
  · intro r _ hnd hshape hmods
    have h1 : (flatten_score r).length = ((flatten_score r).map Prod.fst).length :=
      (List.length_map _ _).symm
    rw [h1, keys_flatten r hnd, producedCols_length_shape r hshape, hmods]
  · intro r _ hnd hmem
    exact lookup_flatten_mods_empty r hnd hmem
  · intro r k l _ hnd hk hmem
    exact lookup_flatten_other_list r k l hnd hk hmem

/-- Witness for claim C5 at three concrete records: a full record with
two scalars, a two-subkey statistics dict and a two-element mods list;
a record with an empty mods list; and a record with a tags list. -/
theorem claim_C5_flatten_columns_witness :
    (modsJoinOk scoreMods = true ∧
      (producedCols scoreMods).Nodup ∧
      scoreMods.all (fun e => isScalarV e.2 || isDictV e.2 ||
        (decide (e.1 = "mods") && isListV e.2)) = true ∧
      modsListCount scoreMods = 1 ∧
      modsJoinOk scoreEmptyMods = true ∧
      (producedCols scoreEmptyMods).Nodup ∧
      modsJoinOk scoreOtherList = true ∧
      (producedCols scoreOtherList).Nodup) ∧
    flattenScoreE scoreMods = some (flatten_score scoreMods) ∧
    (flatten_score scoreMods).length =
      scalarFieldCount scoreMods + dictSubkeyCount scoreMods + 1 ∧
    lookupAssoc (flatten_score scoreEmptyMods) "mods" = some (Value.vstr "") ∧
    lookupAssoc (flatten_score scoreOtherList) "tags" =
      some (Value.vlist [Value.vstr "x", Value.vstr "y"]) :=
  ⟨⟨by decide, by decide, by decide, by decide, by decide, by decide,
    by decide, by decide⟩,
   claim_C5_flatten_columns.1 scoreMods (by decide),
   claim_C5_flatten_columns.2.1 scoreMods (by decide) (by decide) (by decide)
     (by decide),
   claim_C5_flatten_columns.2.2.1 scoreEmptyMods (by decide) (by decide)
     (List.mem_cons_of_mem _ (List.mem_cons_self _ _)),
   claim_C5_flatten_columns.2.2.2 scoreOtherList "tags" _ (by decide)
     (by decide) (by decide)
     (List.mem_cons_of_mem _ (List.mem_cons_self _ _))⟩

/-- Claim C6: when some records are accepted and the output file does
not exist (or is empty), process_scores creates it with a header equal
to the sorted union of the column names across the batch rows, followed
by the rows written under that header; when the file already exists,
the fieldnames used for the append are the union of the current header
of the file and the field set of the batch, and the header already on
disk is left unchanged. -/
theorem claim_C6_writer_header (scores : List Record) (eh ei : Finset String)
    (h : acceptedScores eh ei scores ≠ []) :
    (∃ hdr, (process_scores scores none eh ei).file =
        some ⟨hdr, ((acceptedScores eh ei scores).map flatten_score).map (writeRow hdr)⟩ ∧
      hdr.toFinset = batchFields ((acceptedScores eh ei scores).map flatten_score) ∧
      hdr.Sorted pyLe ∧ hdr.Nodup) ∧
    (∀ f : CsvFile, ∃ fieldnames,
      (process_scores scores (some f) eh ei).file =
        some ⟨f.header, f.rows ++
          ((acceptedScores eh ei scores).map flatten_score).map (writeRow fieldnames)⟩ ∧
      fieldnames.toFinset =
        batchFields ((acceptedScores eh ei scores).map flatten_score) ∪
          f.header.toFinset) := by
  constructor
  · refine ⟨sortedFields (batchFields ((acceptedScores eh ei scores).map flatten_score)),
      ?_, sortedFields_toFinset _, sortedFields_sorted _, sortedFields_nodup _⟩
    rw [process_scores_spec_none _ _ _ h]
  · intro f
    refine ⟨sortedFields (batchFields ((acceptedScores eh ei scores).map flatten_score) ∪
      f.header.toFinset), ?_, sortedFields_toFinset _⟩
    rw [process_scores_spec_some _ _ _ _ h]

/-- Witness for claim C6 at the single-record batch scoreA against the
empty ledger. -/
theorem claim_C6_writer_header_witness :
    0 < (acceptedScores ∅ ∅ [scoreA]).length ∧
    ((∃ hdr, (process_scores [scoreA] none ∅ ∅).file =
        some ⟨hdr, ((acceptedScores ∅ ∅ [scoreA]).map flatten_score).map (writeRow hdr)⟩ ∧
      hdr.toFinset = batchFields ((acceptedScores ∅ ∅ [scoreA]).map flatten_score) ∧
      hdr.Sorted pyLe ∧ hdr.Nodup) ∧
    (∀ f : CsvFile, ∃ fieldnames,
      (process_scores [scoreA] (some f) ∅ ∅).file =
        some ⟨f.header, f.rows ++
          ((acceptedScores ∅ ∅ [scoreA]).map flatten_score).map (writeRow fieldnames)⟩ ∧
      fieldnames.toFinset =
        batchFields ((acceptedScores ∅ ∅ [scoreA]).map flatten_score) ∪
          f.header.toFinset)) :=
  ⟨by decide, claim_C6_writer_header [scoreA] ∅ ∅
    (List.ne_nil_of_length_pos (by decide))⟩

/-- Claim C10: the dedup loop of one process_scores call checks only
the sets passed in, never the ids and hashes accepted earlier in the
same batch: a record absent from the existing sets that occurs twice in
the input list is accepted at both occurrences, and both corresponding
rows are appended. -/
theorem claim_C10_intra_batch_dup (eh ei : Finset String) (r : Record)
    (s₁ s₂ s₃ : List Record) (hid : pyGetStr r "id" ∉ ei)
    (hh : generate_score_hash r ∉ eh) :
    acceptedScores eh ei (s₁ ++ r :: (s₂ ++ r :: s₃)) =
      acceptedScores eh ei s₁ ++ r :: (acceptedScores eh ei s₂ ++
        r :: acceptedScores eh ei s₃) ∧
    (process_scores (s₁ ++ r :: (s₂ ++ r :: s₃)) none eh ei).added =
      (acceptedScores eh ei s₁).length + (acceptedScores eh ei s₂).length +
        (acceptedScores eh ei s₃).length + 2 ∧
    ∃ f : CsvFile,
      (process_scores (s₁ ++ r :: (s₂ ++ r :: s₃)) none eh ei).file = some f ∧
      f.rows.length =
        (process_scores (s₁ ++ r :: (s₂ ++ r :: s₃)) none eh ei).added := by
  have hnew : isNewB eh ei r = true := by simp [isNewB, hid, hh]
  have h1 : acceptedScores eh ei (s₁ ++ r :: (s₂ ++ r :: s₃)) =
      acceptedScores eh ei s₁ ++ r :: (acceptedScores eh ei s₂ ++
        r :: acceptedScores eh ei s₃) := by
    simp only [acceptedScores_eq_filter, List.filter_append, List.filter_cons, hnew,
      if_pos]
  have hne : acceptedScores eh ei (s₁ ++ r :: (s₂ ++ r :: s₃)) ≠ [] := by
    rw [h1]
    simp
  refine ⟨h1, ?_, ?_⟩
  · rw [process_added_eq, h1]
    simp [List.length_append]
    omega
  · rw [process_scores_spec_none _ _ _ hne]
    exact ⟨_, rfl, by simp⟩

/-- Witness for claim C10: the record scoreA occurring twice in one
batch against the empty ledger. -/
theorem claim_C10_intra_batch_dup_witness :
    (pyGetStr scoreA "id" ∉ (∅ : Finset String) ∧
      generate_score_hash scoreA ∉ (∅ : Finset String)) ∧
    (acceptedScores ∅ ∅ ([] ++ scoreA :: ([] ++ scoreA :: [])) =
      acceptedScores ∅ ∅ [] ++ scoreA :: (acceptedScores ∅ ∅ [] ++
        scoreA :: acceptedScores ∅ ∅ []) ∧
    (process_scores ([] ++ scoreA :: ([] ++ scoreA :: [])) none ∅ ∅).added =
      (acceptedScores ∅ ∅ []).length + (acceptedScores ∅ ∅ []).length +
        (acceptedScores ∅ ∅ []).length + 2 ∧
    ∃ f : CsvFile,
      (process_scores ([] ++ scoreA :: ([] ++ scoreA :: [])) none ∅ ∅).file = some f ∧
      f.rows.length =
        (process_scores ([] ++ scoreA :: ([] ++ scoreA :: [])) none ∅ ∅).added) :=
  ⟨⟨by decide, by decide⟩,
   claim_C10_intra_batch_dup ∅ ∅ scoreA [] [] [] (by decide) (by decide)⟩

/-- Claim C4 counterexample: two cycles whose records are well shaped
but have different column sets.  The second append writes its rows
under a wider fieldnames list than the header on disk, so on reload the
cells are matched to the wrong columns, the reloaded ledger misses the
true id and fingerprint of the second record, and a second run of the
same ingest appends it again: the output file changes. -/
theorem claim_C4_counterexample :
    (goodRecord scoreW1 = true ∧ goodRecord scoreW2 = true) ∧
    (runPoll
        ⟨(load_existing_scores (runPoll ⟨∅, ∅, none⟩
            [some [scoreW1], some [scoreW2]]).file).1,
         (load_existing_scores (runPoll ⟨∅, ∅, none⟩
            [some [scoreW1], some [scoreW2]]).file).2,
         (runPoll ⟨∅, ∅, none⟩ [some [scoreW1], some [scoreW2]]).file⟩
        [some [scoreW1], some [scoreW2]]).file ≠
      (runPoll ⟨∅, ∅, none⟩ [some [scoreW1], some [scoreW2]]).file := by decide

/-- Claim C4 (amended): for fetch responses whose records are well
shaped (unique keys; id present as a non-null non-dict value with
non-empty string form; the other identity fields non-null and non-dict
when present and never shadowed by nested-dict columns; every mods list
joinable, i.e. all its acronyms strings) and all flatten to one common
column set F, running the full ingest a second time with the ledger
re-seeded from the output file of the first run leaves the state, and
in particular the output file, unchanged: every record is rejected as a
duplicate and zero rows are appended. -/
theorem claim_C4_idempotent (F : Finset String) (bs : List (Option (List Record)))
    (hgood : ∀ o ∈ bs, ∀ r ∈ o.getD [], goodRecord r = true ∧
      ((flatten_score r).map Prod.fst).toFinset = F) :
    runPoll
      ⟨(load_existing_scores (runPoll ⟨∅, ∅, none⟩ bs).file).1,
       (load_existing_scores (runPoll ⟨∅, ∅, none⟩ bs).file).2,
       (runPoll ⟨∅, ∅, none⟩ bs).file⟩ bs =
    ⟨(load_existing_scores (runPoll ⟨∅, ∅, none⟩ bs).file).1,
     (load_existing_scores (runPoll ⟨∅, ∅, none⟩ bs).file).2,
     (runPoll ⟨∅, ∅, none⟩ bs).file⟩ := by
  have hgb : ∀ o ∈ bs, goodBatch F o := hgood
  obtain ⟨hinv, hhdr, hcov⟩ := runPoll_invariant F ⟨∅, ∅, none⟩ bs rfl
    (fun f hf => Option.noConfusion hf) hgb
  have h2 : load_existing_scores (runPoll ⟨∅, ∅, none⟩ bs).file =
      ((runPoll ⟨∅, ∅, none⟩ bs).hashes, (runPoll ⟨∅, ∅, none⟩ bs).ids) := hinv
  have h4 : (⟨(load_existing_scores (runPoll ⟨∅, ∅, none⟩ bs).file).1,
      (load_existing_scores (runPoll ⟨∅, ∅, none⟩ bs).file).2,
      (runPoll ⟨∅, ∅, none⟩ bs).file⟩ : SysState) = runPoll ⟨∅, ∅, none⟩ bs := by
    rw [h2]
  rw [h4]
  exact runPoll_covered_eq _ bs hcov

/-- Witness for the amended claim C4: a one-cycle run over the record
scoreA, whose flattened column set is the four identity columns. -/
theorem claim_C4_idempotent_witness :
    (∀ o ∈ ([some [scoreA]] : List (Option (List Record))), ∀ r ∈ o.getD [],
      goodRecord r = true ∧ ((flatten_score r).map Prod.fst).toFinset =
        ({"id", "user_id", "beatmap_id", "created_at"} : Finset String)) ∧
    runPoll
      ⟨(load_existing_scores (runPoll ⟨∅, ∅, none⟩ [some [scoreA]]).file).1,
       (load_existing_scores (runPoll ⟨∅, ∅, none⟩ [some [scoreA]]).file).2,
       (runPoll ⟨∅, ∅, none⟩ [some [scoreA]]).file⟩ [some [scoreA]] =
    ⟨(load_existing_scores (runPoll ⟨∅, ∅, none⟩ [some [scoreA]]).file).1,
     (load_existing_scores (runPoll ⟨∅, ∅, none⟩ [some [scoreA]]).file).2,
     (runPoll ⟨∅, ∅, none⟩ [some [scoreA]]).file⟩ :=
  ⟨by decide, claim_C4_idempotent {"id", "user_id", "beatmap_id", "created_at"}
    [some [scoreA]] (by decide)⟩

end OsuScoreHistory
